import Mathlib

/-!
Verification of the content normalization and reconciliation engine of the
AI presentation/document generator backend.

The Python sources embedded here are:
  * `backend/services/docx_generator.py`  (`_clean_section_content`, `build_docx_file`)
  * `backend/services/content_generator.py`
      (`generate_content_with_gemini` normalization, `generate_word_sections_with_gemini`,
       `refine_word_section_with_gemini`)
  * `backend/routers/documents.py`  (`create_word_project` paged branch, `refine_section`)

Python strings are modelled as `String` / `List Char`; Python `str.strip`,
`str.lower`, `str.replace`, `str.split` are re-implemented at character level
(`pyStrip`, `pyLower`, `replace2`, `splitNL`) with Python's semantics, restricted
to the ASCII whitespace / letter classes (the inputs of interest are ASCII-based;
Python's additional Unicode whitespace/digit classes are out of scope).
Fallible paths (exceptions raised and re-raised as `RuntimeError`) are modelled
with `Except Unit`.
-/

/-! ### Character-level string primitives (Python semantics) -/

/-- Python whitespace for `str.strip()` (ASCII subset: space, tab, LF, CR, VT, FF). -/
def isPySpace (c : Char) : Bool :=
  c == ' ' || c == '\t' || c == '\n' || c == '\r' || c == '\x0b' || c == '\x0c'

/-- Remove trailing characters satisfying `p` (the tail half of Python `strip`). -/
def dropTrail (p : Char → Bool) (l : List Char) : List Char :=
  (l.reverse.dropWhile p).reverse

/-- Python `str.strip()` on a character list. -/
def pyStrip (l : List Char) : List Char :=
  dropTrail isPySpace (l.dropWhile isPySpace)

/-- Python `str.lower()` (ASCII case folding, as in `Char.toLower`). -/
def pyLower (l : List Char) : List Char :=
  l.map Char.toLower

/-- Python `str.strip()` on `String`. -/
def pyStripStr (s : String) : String :=
  String.mk (pyStrip s.data)

/-- Python `s.replace(ab, c)` for a two-character pattern `a,b` and a
one-character replacement `c`: greedy non-overlapping left-to-right scan. -/
def replace2 (a b c : Char) : List Char → List Char
  | [] => []
  | [x] => [x]
  | x :: y :: rest =>
    if x = a ∧ y = b then c :: replace2 a b c rest
    else x :: replace2 a b c (y :: rest)

/-- Python `s.replace("\r", "\n")` (single-character pattern: plain map). -/
def mapCR (l : List Char) : List Char :=
  l.map (fun ch => if ch = '\r' then '\n' else ch)

/-- Python `s.split("\n")` on a character list. -/
def splitNL : List Char → List (List Char)
  | [] => [[]]
  | c :: rest =>
    match splitNL rest with
    | [] => [[c]]
    | seg :: segs => if c = '\n' then [] :: seg :: segs else (c :: seg) :: segs

/-- Python `"\n".join(lines)` on character lists. -/
def joinNL : List (List Char) → List Char
  | [] => []
  | [l] => l
  | l :: rest => l ++ '\n' :: joinNL rest

/-- Containment of a pattern as a contiguous run (Python `pat in s`). -/
def containsSub (pat : List Char) : List Char → Bool
  | [] => pat.isEmpty
  | x :: rest => pat.isPrefixOf (x :: rest) || containsSub pat rest

/-! ### `_clean_section_content` (backend/services/docx_generator.py, lines 15-82) -/

/-- One leading line is "meta" when (after lowering) it equals the lowered document
title, starts with `"page "` and contains `"section"`, starts with `"section "`,
equals the lowered heading, or starts with the lowered heading followed by `":"`.
Mirrors the tests `is_doc_title` .. `is_heading_with_colon` of the source. -/
def isMetaLine (dLow hLow first : List Char) : Bool :=
  let fLow := pyLower first
  fLow == dLow
    || ("page ".toList.isPrefixOf fLow && containsSub "section".toList fLow)
    || "section ".toList.isPrefixOf fLow
    || fLow == hLow
    || (!hLow.isEmpty && (hLow ++ [':']).isPrefixOf fLow)

/-- The `while lines:` loop of `_clean_section_content`: drop leading blank or
meta lines, stop at the first normal line. -/
def stripMeta (dLow hLow : List Char) : List (List Char) → List (List Char)
  | [] => []
  | l :: rest =>
    let first := pyStrip l
    if first = [] then stripMeta dLow hLow rest
    else if isMetaLine dLow hLow first then stripMeta dLow hLow rest
    else l :: rest

/-- Tail of the blank-collapsing loop: `prev` is the last kept line; a blank line
is skipped exactly when the last kept line is also blank. -/
def collapseAfter (prev : List Char) : List (List Char) → List (List Char)
  | [] => []
  | y :: rest =>
    if y = [] ∧ prev = [] then collapseAfter prev rest
    else y :: collapseAfter y rest

/-- The `for line in lines:` blank-collapsing loop of `_clean_section_content`
(the first line is always kept; a blank line is dropped when the previously
kept line is blank). -/
def collapse : List (List Char) → List (List Char)
  | [] => []
  | x :: rest => x :: collapseAfter x rest

/-- Python `while cleaned and cleaned[0] == "": cleaned.pop(0)`. -/
def dropLeadingBlanks (l : List (List Char)) : List (List Char) :=
  l.dropWhile (·.isEmpty)

/-- Python `while cleaned and cleaned[-1] == "": cleaned.pop()`. -/
def dropTrailingBlanks (l : List (List Char)) : List (List Char) :=
  (l.reverse.dropWhile (·.isEmpty)).reverse

/-- The list-level tail of `_clean_section_content` after line splitting: drop
leading meta lines, collapse duplicate blank lines, trim blank lines at both
ends, join and strip. -/
def pipelineTail (dLow hLow : List Char) (lines : List (List Char)) : List Char :=
  pyStrip (joinNL (dropTrailingBlanks (dropLeadingBlanks (collapse (stripMeta dLow hLow lines)))))

/-- Character-level body of `_clean_section_content`: normalise line endings,
convert escaped `\n`, split and strip lines, then `pipelineTail`. -/
def sanitizeL (doc_title heading raw : List Char) : List Char :=
  if raw = [] then []
  else
    pipelineTail (pyLower (pyStrip doc_title)) (pyLower (pyStrip heading))
      ((splitNL (replace2 '\\' 'n' '\n' (mapCR (replace2 '\r' '\n' '\n' raw)))).map pyStrip)

/-- `_clean_section_content(doc_title, heading, raw)` of
backend/services/docx_generator.py. -/
def _clean_section_content (doc_title heading raw : String) : String :=
  String.mk (sanitizeL doc_title.data heading.data raw.data)

/-! ### Adjacent-pair predicates (proof support for the sanitizer) -/

/-- Every adjacent pair of the list satisfies `R`. -/
def adjOK (R : α → α → Prop) : List α → Prop
  | x :: y :: rest => R x y ∧ adjOK R (y :: rest)
  | _ => True

/-- No occurrence of the two-character pattern `a, b` as adjacent characters. -/
def pairFree (a b : Char) (l : List Char) : Prop :=
  adjOK (fun x y => ¬(x = a ∧ y = b)) l

/-- No two adjacent blank lines. -/
def noTwoBlank (l : List (List Char)) : Prop :=
  adjOK (fun x y => ¬(x = [] ∧ y = [])) l

/-! ### `build_docx_file` (backend/services/docx_generator.py, lines 85-158)

The external `python-docx` writer is opaque; the document is modelled as the
ordered list of emitted items (title heading, page breaks, section headings
with their font size, body paragraphs with their font size). -/

/-- One entry of a `pages` value: `{"heading": ..., "content": ...}`. -/
structure SecDict where
  heading : String
  content : String
deriving DecidableEq, Repr

/-- An item emitted into the Word document, in order. -/
inductive DocItem where
  | title (text : String)
  | pageBreak
  | secHeading (text : String) (size : Nat)
  | para (text : String) (size : Nat)
deriving DecidableEq, Repr

/-- Font size selection of `build_docx_file`: `(para_size, heading_size)` as a
function of the number of sections on the page. -/
def fontSizes (numSections : Nat) : Nat × Nat :=
  if numSections ≤ 1 then (12, 16)
  else if numSections = 2 then (11, 14)
  else (10, 13)

/-- Items emitted for one section: optional heading (font `headingSize`), then
one paragraph per non-blank line of the cleaned content (font `paraSize`).
`content.split("\n")` is `splitNL`, `para_text.strip()` is `pyStrip`. -/
def emitSection (title : String) (paraSize headingSize : Nat) (sec : SecDict) : List DocItem :=
  let content := _clean_section_content title sec.heading sec.content
  (if sec.heading ≠ "" then [DocItem.secHeading sec.heading headingSize] else [])
    ++ (if content ≠ "" then
          (splitNL content.data).filterMap (fun l =>
            if pyStrip l ≠ [] then some (DocItem.para (String.mk (pyStrip l)) paraSize) else none)
        else [])

/-- Items emitted for one page (without the preceding page break). -/
def pageBlock (title : String) (secs : List SecDict) : List DocItem :=
  let sizes := fontSizes secs.length
  (secs.map (emitSection title sizes.1 sizes.2)).flatten

/-- The `for page_num in sorted(pages.keys())` loop: the flag is the source's
`first_page`; every page after the first is preceded by a page break. -/
def buildPages (title : String) : Bool → List (Nat × List SecDict) → List DocItem
  | _, [] => []
  | first, pg :: rest =>
    (if first then [] else [DocItem.pageBreak]) ++ pageBlock title pg.2 ++ buildPages title false rest

/-- Comparison of page entries by page number (`sorted(pages.keys())`). -/
def pageLe (a b : Nat × List SecDict) : Prop := a.1 ≤ b.1

instance : DecidableRel pageLe := fun a b => Nat.decLe a.1 b.1

instance : IsTotal (Nat × List SecDict) pageLe := ⟨fun a b => Nat.le_total a.1 b.1⟩

instance : IsTrans (Nat × List SecDict) pageLe := ⟨fun _ _ _ => Nat.le_trans⟩

/-- `build_docx_file(project_id, title, pages)` of backend/services/docx_generator.py;
the `pages` dict is a key-value list (keys unique), iterated in ascending key order.
The project id only names the output file and is omitted. -/
def build_docx_file (title : String) (pages : List (Nat × List SecDict)) : List DocItem :=
  DocItem.title title :: buildPages title true (List.insertionSort pageLe pages)

/-- A stored section with its content replaced by the sanitized form. -/
def cleanSec (title : String) (sec : SecDict) : SecDict :=
  ⟨sec.heading, _clean_section_content title sec.heading sec.content⟩

/-- One page entry with every stored content sanitized. -/
def cleanPage (title : String) (pg : Nat × List SecDict) : Nat × List SecDict :=
  (pg.1, pg.2.map (cleanSec title))

/-- The `pages` value with every stored section content replaced by its sanitized
form (what export would see if refinement results had been sanitized on storage). -/
def cleanStored (title : String) (pages : List (Nat × List SecDict)) : List (Nat × List SecDict) :=
  pages.map (cleanPage title)

/-! ### JSON values (the parsed Gemini response for slide generation)

Python values arising from `json.loads`, with Python truthiness and `str()`.
Numbers are modelled as integers. -/

inductive Json where
  | null
  | bool (b : Bool)
  | num (n : Int)
  | str (s : String)
  | arr (elems : List Json)
  | obj (fields : List (String × Json))

/-- Python truthiness (`if image:` etc.). -/
def Json.isTruthy : Json → Bool
  | .null => false
  | .bool b => b
  | .num n => n != 0
  | .str s => s != ""
  | .arr xs => !xs.isEmpty
  | .obj kvs => !kvs.isEmpty

/-- Python `isinstance(x, str)`. -/
def Json.isStr : Json → Bool
  | .str _ => true
  | _ => false

mutual

/-- Python `repr` of a parsed-JSON value (string quoting is approximated by
plain single quotes; none of the verified claims depends on escape details). -/
def pyRepr : Json → String
  | .null => "None"
  | .bool true => "True"
  | .bool false => "False"
  | .num n => toString n
  | .str s => "'" ++ s ++ "'"
  | .arr xs => "[" ++ pyReprList xs ++ "]"
  | .obj kvs => "\x7b" ++ pyReprObj kvs ++ "\x7d"

def pyReprList : List Json → String
  | [] => ""
  | [x] => pyRepr x
  | x :: y :: rest => pyRepr x ++ ", " ++ pyReprList (y :: rest)

def pyReprObj : List (String × Json) → String
  | [] => ""
  | [(k, v)] => "'" ++ k ++ "': " ++ pyRepr v
  | (k, v) :: p :: rest => "'" ++ k ++ "': " ++ pyRepr v ++ ", " ++ pyReprObj (p :: rest)

end

/-- Python `str(x)` for a parsed-JSON value. -/
def pyStr (j : Json) : String :=
  match j with
  | .str s => s
  | _ => pyRepr j

/-- Dictionary lookup `d.get(k)` (keys of a parsed JSON object are unique). -/
def jget (kvs : List (String × Json)) (k : String) : Option Json :=
  (kvs.find? (fun p => p.1 == k)).map (fun p => p.2)

/-- Dictionary lookup with default, `d.get(k, dflt)`. -/
def jgetD (kvs : List (String × Json)) (k : String) (dflt : Json) : Json :=
  (jget kvs k).getD dflt

/-- Dictionary assignment `d[k] = v`: overwrite in place, else append. -/
def setKey (kvs : List (String × Json)) (k : String) (v : Json) : List (String × Json) :=
  if (kvs.find? (fun p => p.1 == k)).isSome then
    kvs.map (fun p => if p.1 == k then (k, v) else p)
  else kvs ++ [(k, v)]

/-! ### `generate_content_with_gemini` normalization
(backend/services/content_generator.py, lines 123-234)

`enums.SlideLayout.{title,bullet,two_column,image}.value` — the enums module is
not part of the provided sources. Modelled from the spec: the closed set of
layout tags is exactly the four strings "title", "bullet", "two_column",
"image" (the code also compares against these literals directly). -/

/-- A normalized slide: the Python dict built by the normalizer. -/
abbrev NormSlide := List (String × Json)

/-- The per-element mapping of the `for idx, slide in enumerate(data)` loop,
for a dict element: `none` means the element contributes no slide (a declared
layout outside the four recognized tags). -/
def mapElemObj (kvs : List (String × Json)) : Option NormSlide :=
  match jget kvs "layout" with
    | some layout =>
      -- `layout == "title"` etc.: a non-string layout value equals none of the tags.
      match layout with
      | .str tag =>
        if tag = "title" then
          some [("layout", Json.str "title"), ("title", jgetD kvs "title" (Json.str ""))]
        else if tag = "bullet" then
          some [("layout", Json.str "bullet"), ("title", jgetD kvs "title" (Json.str "")),
                ("bullets", if (jgetD kvs "bullets" Json.null).isTruthy
                            then jgetD kvs "bullets" Json.null else Json.arr [])]
        else if tag = "two_column" then
          some [("layout", Json.str "two_column"), ("title", jgetD kvs "title" (Json.str "")),
                ("left", jgetD kvs "left" (Json.str "")), ("right", jgetD kvs "right" (Json.str ""))]
        else if tag = "image" then
          some [("layout", Json.str "image"), ("title", jgetD kvs "title" (Json.str "")),
                ("caption", jgetD kvs "caption" (jgetD kvs "title" (Json.str "")))]
        else none
      | _ => none
    | none =>
      -- fallback inference: `title`, `content`, `image`, `notes` are the
      -- corresponding `slide.get(...)` values (absent keys behave as None).
      match jgetD kvs "content" Json.null with
      | .arr items =>
        some [("layout", Json.str "bullet"), ("title", jgetD kvs "title" (Json.str "")),
              ("bullets", Json.arr (items.filterMap (fun b =>
                if pyStripStr (pyStr b) = "" then none
                else some (Json.str (pyStripStr (pyStr b))))))]
      | _ =>
        if (jgetD kvs "image" Json.null).isTruthy then
          some [("layout", Json.str "image"), ("title", jgetD kvs "title" (Json.str "")),
                ("caption", if (jgetD kvs "notes" Json.null).isTruthy
                            then jgetD kvs "notes" Json.null
                            else Json.str (pyStr (jgetD kvs "image" Json.null)))]
        else
          some [("layout", Json.str "title"), ("title", jgetD kvs "title" (Json.str ""))]

/-- The per-element mapping: a non-dict element contributes no slide. -/
def mapElem (slide : Json) : Option NormSlide :=
  match slide with
  | .obj kvs => mapElemObj kvs
  | _ => none

/-- A padding slide: `{"layout": "title", "title": f"Slide "}` for 0-based
position `i` (label uses the 1-based position `i + 1`). -/
def synthSlide (i : Nat) : NormSlide :=
  [("layout", Json.str "title"), ("title", Json.str ("Slide " ++ Nat.repr (i + 1)))]

/-- Cardinality repair: pad with synthesized title slides up to `n`, or truncate
to the first `n`. -/
def padSlides (mapped : List NormSlide) (n : Nat) : List NormSlide :=
  if mapped.length < n then
    mapped ++ (List.range' mapped.length (n - mapped.length)).map synthSlide
  else if mapped.length > n then mapped.take n
  else mapped

/-- Characters kept by `re.sub(r"[^a-zA-Z0-9]", "", ...)`. -/
def isAlnumChar (c : Char) : Bool :=
  c.isAlpha || c.isDigit

/-- The placeholder-image seed: `f"_"` with non-alphanumerics removed,
falling back to `f"slide_"` when nothing remains. -/
def seedOf (topic : String) (idx : Nat) : String :=
  let s := String.mk ((topic ++ "_" ++ Nat.repr idx).data.filter isAlnumChar)
  if s = "" then "slide_" ++ Nat.repr idx else s

/-- Python slicing `x[:120]`: defined for strings and lists, a `TypeError`
(modelled as `none`) otherwise. -/
def pySlice120 : Json → Option Json
  | .str s => some (.str (String.mk (s.data.take 120)))
  | .arr xs => some (.arr (xs.take 120))
  | _ => none

/-- Test `s.get("layout") == "image"` on a normalized slide. -/
def isImageSlide (s : NormSlide) : Bool :=
  match jgetD s "layout" Json.null with
  | .str tag => tag == "image"
  | _ => false

/-- Caption repair for an image slide:
`if not s.get("caption") or not isinstance(s.get("caption"), str):
   s["caption"] = (s.get("title", "") or "")[:120]`;
a `TypeError` (modelled as `.error`) arises when the title is a truthy
non-string, non-list value. -/
def postSlideStep1 (s : NormSlide) : Except Unit NormSlide :=
  if !(jgetD s "caption" Json.null).isTruthy || !(jgetD s "caption" Json.null).isStr then
    match pySlice120 (if (jgetD s "title" (Json.str "")).isTruthy
                      then jgetD s "title" (Json.str "") else Json.str "") with
    | some v => .ok (setKey s "caption" v)
    | none => .error ()
  else .ok s

/-- The image post-pass body for the slide at index `idx`: repair the caption
and set the deterministic placeholder `image_url`. -/
def postSlide (topic : String) (idx : Nat) (s : NormSlide) : Except Unit NormSlide :=
  if isImageSlide s then
    match postSlideStep1 s with
    | .error e => .error e
    | .ok s1 =>
      .ok (setKey s1 "image_url"
            (Json.str ("https://picsum.photos/seed/" ++ seedOf topic idx ++ "/1200/800")))
  else .ok s

/-- The `for idx, s in enumerate(normalized_slides)` post-pass, starting at
index `idx`; an exception anywhere aborts the whole call. -/
def postPass (topic : String) (idx : Nat) : List NormSlide → Except Unit (List NormSlide)
  | [] => .ok []
  | s :: rest =>
    match postSlide topic idx s with
    | .error e => .error e
    | .ok s1 =>
      match postPass topic (idx + 1) rest with
      | .error e => .error e
      | .ok rest1 => .ok (s1 :: rest1)

/-- The normalization pipeline of `generate_content_with_gemini`, applied to a
response that already parsed to a JSON array `data`: per-element mapping,
cardinality repair, image post-pass. `.error` models the raised
`RuntimeError("Gemini content generation failed")`. -/
def normalize_slides (topic : String) (num_slides : Nat) (data : List Json) :
    Except Unit (List NormSlide) :=
  postPass topic 0 (padSlides (data.filterMap mapElem) num_slides)

/-! ### `generate_word_sections_with_gemini`
(backend/services/content_generator.py, lines 242-358)

The response elements are modelled as typed records (the spec's contract:
an array of heading / order_index / content objects). -/

/-- One parsed response element for Word-section generation. -/
structure GenSection where
  heading : String
  order_index : Int
  content : String
deriving DecidableEq, Repr

/-- Comparison used by `sections.sort(key=lambda s: s.get("order_index", 0))`. -/
def genLe (a b : GenSection) : Prop := a.order_index ≤ b.order_index

instance : DecidableRel genLe := fun a b => Int.decLe a.order_index b.order_index

/-- Consume a literal. -/
def eatLit (lit s : List Char) : Option (List Char) :=
  if lit.isPrefixOf s then some (s.drop lit.length) else none

/-- Consume `\s*` (greedy). -/
def eatWs (s : List Char) : List Char :=
  s.dropWhile isPySpace

/-- Consume `\d+` (greedy, at least one digit). -/
def eatDigits1 : List Char → Option (List Char)
  | [] => none
  | c :: rest => if c.isDigit then some (rest.dropWhile Char.isDigit) else none

/-- Matcher for `^(Page|page)\s*\d+\s*[-–]\s*(Section|section)\s*\d+\s*\n*`;
returns the remainder after the match. All adjacent token classes are disjoint,
so the greedy reading is exact; the trailing `\s*\n*` consumes all whitespace. -/
def matchPageLabel (s : List Char) : Option (List Char) := do
  let s ← eatLit "Page".toList s <|> eatLit "page".toList s
  let s ← eatDigits1 (eatWs s)
  let s ← match eatWs s with
          | c :: rest => if c = '-' ∨ c = '–' then some rest else none
          | [] => none
  let s2 := eatWs s
  let s ← eatLit "Section".toList s2 <|> eatLit "section".toList s2
  let s ← eatDigits1 (eatWs s)
  pure (eatWs s)

/-- Matcher for `^(Section|section)\s*\d+\s*[:\-]\s*`. -/
def matchSectionLabel (s : List Char) : Option (List Char) := do
  let s ← eatLit "Section".toList s <|> eatLit "section".toList s
  let s ← eatDigits1 (eatWs s)
  let s ← match eatWs s with
          | c :: rest => if c = ':' ∨ c = '-' then some rest else none
          | [] => none
  pure (eatWs s)

/-- `re.sub` of the page-label pattern (anchored at the start: at most one match). -/
def stripPageLabel (content : String) : String :=
  match matchPageLabel content.data with
  | some rest => String.mk rest
  | none => content

/-- `re.sub` of the section-label pattern (anchored at the start). -/
def stripSectionLabel (content : String) : String :=
  match matchSectionLabel content.data with
  | some rest => String.mk rest
  | none => content

/-- Python `content.split("\n", 1)`: the first line and the rest, if a newline exists. -/
def splitFirstNL : List Char → Option (List Char × List Char)
  | [] => none
  | c :: rest =>
    if c = '\n' then some ([], rest)
    else match splitFirstNL rest with
         | none => none
         | some (a, b) => some (c :: a, b)

/-- Drop the first line when it equals the topic after stripping
(`if first_line.strip() == topic.strip()`). -/
def dropTopicLine (topic content : String) : String :=
  match splitFirstNL content.data with
  | none => if pyStripStr content = pyStripStr topic then "" else content
  | some (first, rest) =>
    if pyStrip first = pyStrip topic.data then String.mk rest else content

/-- The per-element cleanup of `generate_word_sections_with_gemini`: strip a
leading page label, a leading section label, a leading topic line, then strip. -/
def cleanGenContent (topic content : String) : String :=
  pyStripStr (dropTopicLine topic (stripSectionLabel (stripPageLabel content)))

/-- The post-parse processing of `generate_word_sections_with_gemini`: stable
sort by `order_index`, then clean every content. -/
def generate_word_sections (topic : String) (resp : List GenSection) : List GenSection :=
  (List.insertionSort genLe resp).map (fun s => { s with content := cleanGenContent topic s.content })

/-! ### `create_word_project` paged branch and `refine_section`
(backend/routers/documents.py)

The project/section storage rows (`models.Section`) and request schemas
(`schemas.ProjectCreate.pages`) are not among the provided sources; their
fields are modelled from their use in `documents.py` and §3 of the spec. -/

/-- One page configuration of the request: page number and ordered headings. -/
structure PageCfg where
  page_number : Int
  sections : List String
deriving DecidableEq, Repr

/-- Comparison used by `sorted(project_in.pages, key=lambda p: p.page_number)`. -/
def pageCfgLe (a b : PageCfg) : Prop := a.page_number ≤ b.page_number

instance : DecidableRel pageCfgLe := fun a b => Int.decLe a.page_number b.page_number

instance : IsTotal PageCfg pageCfgLe := ⟨fun a b => Int.le_total a.page_number b.page_number⟩

instance : IsTrans PageCfg pageCfgLe := ⟨fun _ _ _ => Int.le_trans⟩

/-- One entry of a section's revision history. -/
structure HistEntry where
  version : Nat
  prompt : String
  content : String
deriving DecidableEq, Repr

/-- A stored section row, as created by the paged branch. -/
structure DbSection where
  title : String
  order_index : Nat
  page_number : Int
  section_index : Nat
  content : String
  history : List HistEntry
deriving DecidableEq, Repr

/-- Resolution of one requested heading's content:
`content_by_heading.get(title, "") or ""`, with the single-shot fallback call
(`refine_word_section_with_gemini`, an external fallible collaborator) when the
resolved content is blank after stripping. -/
def resolveContent (lookup : String → Option String) (fallback : String → Except Unit String)
    (title : String) : Except Unit String :=
  let content := (lookup title).getD ""
  if pyStripStr content = "" then fallback title else .ok content

/-- One insertion step of the dict comprehension
`{s["heading"]: s["content"] for s in generated_sections}`: overwrite on the
same heading. -/
def dictInsert (m : String → Option String) (s : GenSection) : String → Option String :=
  fun k => if k = s.heading then some s.content else m k

/-- The dict comprehension: insertion with overwrite, left to right, so a later
element with the same heading wins. -/
def contentByHeading (gen : List GenSection) : String → Option String :=
  gen.foldl dictInsert (fun _ => none)

/-- The inner `for idx, title in enumerate(section_titles, start=1)` loop:
one row per title, with page number `pageNum`, 1-based `idx` within the page and
global order index `gIdx`; history starts at version 1, "initial generation". -/
def createPageSecs (lookup : String → Option String) (fallback : String → Except Unit String)
    (pageNum : Int) : List String → Nat → Nat → Except Unit (List DbSection)
  | [], _, _ => .ok []
  | t :: ts, idx, gIdx =>
    match resolveContent lookup fallback t with
    | .error e => .error e
    | .ok c =>
      match createPageSecs lookup fallback pageNum ts (idx + 1) (gIdx + 1) with
      | .error e => .error e
      | .ok rest => .ok (⟨t, gIdx, pageNum, idx, c, [⟨1, "initial generation", c⟩]⟩ :: rest)

/-- The outer `for page_cfg in sorted(project_in.pages, ...)` loop (applied to the
already-sorted list): up to 3 section titles per page. -/
def createPagesLoop (lookup : String → Option String) (fallback : String → Except Unit String) :
    List PageCfg → Nat → Except Unit (List DbSection)
  | [], _ => .ok []
  | p :: rest, gIdx =>
    match createPageSecs lookup fallback p.page_number (p.sections.take 3) 1 gIdx with
    | .error e => .error e
    | .ok secs =>
      match createPagesLoop lookup fallback rest (gIdx + (p.sections.take 3).length) with
      | .error e => .error e
      | .ok restSecs => .ok (secs ++ restSecs)

/-- The paged branch of `create_word_project`: the batch generation call
(`batch`, already parsed; `.error` models a raised
`RuntimeError("Gemini Word content generation failed")`), then per-heading
resolution with fallback. The resulting rows are committed only on overall
success. -/
def create_word_project_paged (topic : String) (pagesCfg : List PageCfg)
    (batch : Except Unit (List GenSection)) (fallback : String → Except Unit String) :
    Except Unit (List DbSection) :=
  match batch with
  | .error e => .error e
  | .ok resp =>
    createPagesLoop (contentByHeading (generate_word_sections topic resp)) fallback
      (List.insertionSort pageCfgLe pagesCfg) 1

/-- The in-memory state of one stored section: `content` and `history`. -/
structure SectionState where
  content : String
  history : List HistEntry
deriving DecidableEq, Repr

/-- A freshly created section: one history entry at version 1. -/
def freshSection (c : String) : SectionState :=
  ⟨c, [⟨1, "initial generation", c⟩]⟩

/-- The success path of `refine_section` (backend/routers/documents.py,
lines 191-211): append a new history entry with version `len(history) + 1` and
replace `content` with the collaborator's result, stored verbatim. -/
def refineSection (s : SectionState) (prompt new_content : String) : SectionState :=
  let history := s.history
  ⟨new_content, history ++ [⟨history.length + 1, prompt, new_content⟩]⟩

/-- A sequence of successful refinements, each given by (prompt, new content). -/
def refineMany (s : SectionState) (steps : List (String × String)) : SectionState :=
  steps.foldl (fun acc pc => refineSection acc pc.1 pc.2) s

/-- History entries produced by successive refinements when the history already
has `base` entries (proof support). -/
def entriesFrom (base : Nat) : List (String × String) → List HistEntry
  | [] => []
  | (p, c) :: rest => ⟨base + 1, p, c⟩ :: entriesFrom (base + 1) rest

/-! ### Theorems -/

/-! #### Refinement history (C4) -/

theorem entriesFrom_length (steps : List (String × String)) :
    ∀ b, (entriesFrom b steps).length = steps.length := by
  induction steps with
  | nil => intro b; rfl
  | cons pc rest ih => intro b; obtain ⟨p, c⟩ := pc; simp [entriesFrom, ih]

theorem entriesFrom_map_version (steps : List (String × String)) :
    ∀ b, (entriesFrom b steps).map (fun e => e.version) = List.range' (b + 1) steps.length := by
  induction steps with
  | nil => intro b; rfl
  | cons pc rest ih =>
    intro b; obtain ⟨p, c⟩ := pc
    simp [entriesFrom, ih, List.range'_succ]

theorem entriesFrom_take (steps : List (String × String)) :
    ∀ (k b : Nat), ∃ tail, entriesFrom b steps = entriesFrom b (steps.take k) ++ tail := by
  induction steps with
  | nil => intro k b; exact ⟨[], by simp [entriesFrom]⟩
  | cons pc rest ih =>
    intro k b
    cases k with
    | zero => exact ⟨entriesFrom b (pc :: rest), by simp [entriesFrom]⟩
    | succ k =>
      obtain ⟨p, c⟩ := pc
      obtain ⟨tail, ht⟩ := ih k (b + 1)
      exact ⟨tail, by simp [entriesFrom, ht]⟩

theorem refineMany_history (steps : List (String × String)) :
    ∀ s : SectionState,
      (refineMany s steps).history = s.history ++ entriesFrom s.history.length steps := by
  induction steps with
  | nil => intro s; simp [refineMany, entriesFrom]
  | cons pc rest ih =>
    intro s
    obtain ⟨p, c⟩ := pc
    have h1 : refineMany s ((p, c) :: rest) = refineMany (refineSection s p c) rest := rfl
    rw [h1, ih]
    simp [refineSection, entriesFrom]

theorem refineMany_last_content (steps : List (String × String)) :
    ∀ s : SectionState,
      (s.history.getLast?).map (fun e => e.content) = some s.content →
      ((refineMany s steps).history.getLast?).map (fun e => e.content)
        = some (refineMany s steps).content := by
  induction steps with
  | nil => intro s h; exact h
  | cons pc rest ih =>
    intro s h
    obtain ⟨p, c⟩ := pc
    exact ih (refineSection s p c) (by simp [refineSection])

/-- C4: refinement is append-only. For a section created with a single initial
history entry at version 1, after any sequence of `k` successful refinements the
history has length `k + 1`, its version numbers are `1, ..., k + 1` in order,
the section's `content` equals the content of the last history entry, and the
history after any shorter sequence of the same refinements is preserved as a
prefix (no earlier entry is rewritten). -/
theorem refine_section_append_only (c0 : String) (steps : List (String × String)) :
    (refineMany (freshSection c0) steps).history.length = steps.length + 1
    ∧ (refineMany (freshSection c0) steps).history.map (fun e => e.version)
        = List.range' 1 (steps.length + 1)
    ∧ ((refineMany (freshSection c0) steps).history.getLast?).map (fun e => e.content)
        = some (refineMany (freshSection c0) steps).content
    ∧ ∀ k : Nat, ∃ tail,
        (refineMany (freshSection c0) steps).history
          = (refineMany (freshSection c0) (steps.take k)).history ++ tail := by
  refine ⟨?_, ?_, ?_, ?_⟩
  · rw [refineMany_history]; simp [freshSection, entriesFrom_length]
  · rw [refineMany_history]
    simp [freshSection, entriesFrom_map_version, List.range'_succ]
  · exact refineMany_last_content steps (freshSection c0) (by simp [freshSection])
  · intro k
    rw [refineMany_history, refineMany_history]
    obtain ⟨tail, ht⟩ := entriesFrom_take steps k (freshSection c0).history.length
    refine ⟨tail, ?_⟩
    have hlen : (freshSection c0).history.length
        = (freshSection c0).history.length := rfl
    rw [ht, List.append_assoc]

/-! #### Page reflow (C3) -/

theorem buildPages_false_flat (title : String) (qs : List (Nat × List SecDict)) :
    buildPages title false qs
      = (qs.map (fun q => DocItem.pageBreak :: pageBlock title q.2)).flatten := by
  induction qs with
  | nil => rfl
  | cons q rest ih => simp [buildPages, ih]

/-- C3: the docx reflow/export path emits pages in ascending page-number order;
only pages after the first are preceded by an explicit page break; the per-page
font sizes are the pure function `fontSizes` of the number of sections on the
page (1 section: 12pt body / 16pt heading; 2 sections: 11pt / 14pt; 3 or more:
10pt / 13pt); and the spec's example with sections A, B on page 1 and C on
page 2 yields two page units, the first with two medium-tier sections and no
break, the second with one large-tier section after a break. -/
theorem build_docx_reflow :
    (∀ pages : List (Nat × List SecDict),
        List.Pairwise pageLe (List.insertionSort pageLe pages))
    ∧ (∀ (title : String) (p : Nat × List SecDict) (ps : List (Nat × List SecDict)),
        buildPages title true (p :: ps)
          = pageBlock title p.2
            ++ (ps.map (fun q => DocItem.pageBreak :: pageBlock title q.2)).flatten)
    ∧ fontSizes 1 = (12, 16) ∧ fontSizes 2 = (11, 14)
    ∧ (∀ n, 3 ≤ n → fontSizes n = (10, 13))
    ∧ build_docx_file "T" [(1, [⟨"A", "a text"⟩, ⟨"B", "b text"⟩]), (2, [⟨"C", "c text"⟩])]
        = [DocItem.title "T",
           DocItem.secHeading "A" 14, DocItem.para "a text" 11,
           DocItem.secHeading "B" 14, DocItem.para "b text" 11,
           DocItem.pageBreak,
           DocItem.secHeading "C" 16, DocItem.para "c text" 12] := by
  refine ⟨?_, ?_, rfl, rfl, ?_, by decide⟩
  · intro pages
    exact List.sorted_insertionSort pageLe pages
  · intro title p ps
    simp [buildPages, buildPages_false_flat]
  · intro n hn
    unfold fontSizes
    rw [if_neg (by omega), if_neg (by omega)]

/-- Witness for C3: the smallest-tier case at a concrete section count. -/
theorem build_docx_reflow_witness : fontSizes 3 = (10, 13) :=
  build_docx_reflow.2.2.2.2.1 3 (by decide)

/-! #### Unrecognized layout tags are dropped (C10) -/

/-- C10: a response element that is an object carrying a "layout" key whose
value is none of the four recognized tags is dropped silently by the slide
normalizer: it is not routed through the generic fallback inference, contributes
no slide, and removing it from the response leaves normalization unchanged. -/
theorem unrecognized_layout_dropped (kvs : List (String × Json)) (v : Json)
    (hget : jget kvs "layout" = some v)
    (hstr : ∀ tag : String, v = Json.str tag →
      tag ≠ "title" ∧ tag ≠ "bullet" ∧ tag ≠ "two_column" ∧ tag ≠ "image") :
    mapElem (Json.obj kvs) = none
    ∧ ∀ (topic : String) (n : Nat) (pre post : List Json),
        normalize_slides topic n (pre ++ Json.obj kvs :: post)
          = normalize_slides topic n (pre ++ post) := by
  have hdrop : mapElem (Json.obj kvs) = none := by
    have hm : mapElem (Json.obj kvs) = mapElemObj kvs := rfl
    rw [hm]
    unfold mapElemObj
    rw [hget]
    cases v with
    | str tag =>
      obtain ⟨h1, h2, h3, h4⟩ := hstr tag rfl
      simp [h1, h2, h3, h4]
    | null => rfl
    | bool b => rfl
    | num n => rfl
    | arr xs => rfl
    | obj fields => rfl
  refine ⟨hdrop, fun topic n pre post => ?_⟩
  unfold normalize_slides
  have : (pre ++ Json.obj kvs :: post).filterMap mapElem
      = (pre ++ post).filterMap mapElem := by
    simp [List.filterMap_append, List.filterMap_cons, hdrop]
  rw [this]

/-- Witness for C10 at the concrete unrecognized tag "hero". -/
theorem unrecognized_layout_dropped_witness :
    mapElem (Json.obj [("layout", Json.str "hero")]) = none :=
  (unrecognized_layout_dropped [("layout", Json.str "hero")] (Json.str "hero") rfl
    (fun tag h => by
      injection h with h'
      subst h'
      exact ⟨by decide, by decide, by decide, by decide⟩)).1

/-! #### Sanitizer example (C5) -/

/-- C5 counterexample: sanitizing the spec's example does not return
"growth has accelerated." — the whole line starting with "Introduction:" is
dropped, not just its prefix. -/
theorem clean_heading_colon_counterexample :
    ¬(_clean_section_content "Doc" "Introduction"
        "Page 2 – Section 3\nIntroduction: growth has accelerated."
        = "growth has accelerated.") := by decide

theorem sanitizeL_of_ne (d h raw : List Char) (hraw : raw ≠ []) :
    sanitizeL d h raw
      = pyStrip (joinNL (dropTrailingBlanks (dropLeadingBlanks (collapse
          (stripMeta (pyLower (pyStrip d)) (pyLower (pyStrip h))
            ((splitNL (replace2 '\\' 'n' '\n' (mapCR (replace2 '\r' '\n' '\n' raw)))).map
              pyStrip)))))) := by
  unfold sanitizeL
  rw [if_neg hraw]
  rfl

theorem stripMeta_cons (dLow hLow l : List Char) (rest : List (List Char)) :
    stripMeta dLow hLow (l :: rest)
      = if pyStrip l = [] then stripMeta dLow hLow rest
        else if isMetaLine dLow hLow (pyStrip l) then stripMeta dLow hLow rest
        else l :: rest := rfl

theorem isMetaLine_eq (dLow hLow first : List Char) :
    isMetaLine dLow hLow first
      = (pyLower first == dLow
          || ("page ".toList.isPrefixOf (pyLower first)
              && containsSub "section".toList (pyLower first))
          || "section ".toList.isPrefixOf (pyLower first)
          || pyLower first == hLow
          || (!hLow.isEmpty && (hLow ++ [':']).isPrefixOf (pyLower first))) := rfl

/-- C5 (amended): sanitizing the spec's example strips the page/section label
line and then drops the entire "Introduction: ..." line (any line starting with
the heading followed by ":" is removed whole), leaving the empty string —
for every document title. -/
theorem clean_heading_colon_line_dropped (doc_title : String) :
    _clean_section_content doc_title "Introduction"
      "Page 2 – Section 3\nIntroduction: growth has accelerated." = "" := by
  unfold _clean_section_content
  rw [sanitizeL_of_ne _ _ _ (by decide)]
  have hlines : (splitNL (replace2 '\\' 'n' '\n' (mapCR (replace2 '\r' '\n' '\n'
      ("Page 2 – Section 3\nIntroduction: growth has accelerated." : String).data)))).map pyStrip
      = ["Page 2 – Section 3".data, "Introduction: growth has accelerated.".data] := by decide
  rw [hlines]
  have hm1 : isMetaLine (pyLower (pyStrip doc_title.data))
      (pyLower (pyStrip ("Introduction" : String).data))
      (pyStrip "Page 2 – Section 3".data) = true := by
    have hpage : ("page ".toList.isPrefixOf (pyLower (pyStrip "Page 2 – Section 3".data))
        && containsSub "section".toList (pyLower (pyStrip "Page 2 – Section 3".data))) = true := by
      decide
    rw [isMetaLine_eq, hpage]
    simp only [Bool.or_true, Bool.true_or]
  have hm2 : isMetaLine (pyLower (pyStrip doc_title.data))
      (pyLower (pyStrip ("Introduction" : String).data))
      (pyStrip "Introduction: growth has accelerated.".data) = true := by
    have hcol : ((!(pyLower (pyStrip ("Introduction" : String).data)).isEmpty)
        && ((pyLower (pyStrip ("Introduction" : String).data) ++ [':']).isPrefixOf
              (pyLower (pyStrip "Introduction: growth has accelerated.".data)))) = true := by
      decide
    rw [isMetaLine_eq, hcol]
    simp only [Bool.or_true, Bool.true_or]
  rw [stripMeta_cons, if_neg (by decide), if_pos hm1]
  rw [stripMeta_cons, if_neg (by decide), if_pos hm2]
  rfl

/-! #### Slide normalization cardinality (C1) -/

theorem jget_cons (q : String × Json) (rest : List (String × Json)) (k : String) :
    jget (q :: rest) k = if q.1 == k then some q.2 else jget rest k := by
  unfold jget
  rw [List.find?]
  cases hb : (q.1 == k) <;> simp [hb]

theorem jget_map_overwrite (k k' : String) (v : Json) (h : k' ≠ k) :
    ∀ kvs : List (String × Json),
      jget (kvs.map (fun p => if p.1 == k then (k, v) else p)) k' = jget kvs k' := by
  have hne : ¬((k : String) = k') := fun hkk => h hkk.symm
  intro kvs
  induction kvs with
  | nil => rfl
  | cons p rest ih =>
    simp only [List.map_cons]
    by_cases hp : p.1 = k
    · rw [if_pos (show (p.1 == k) = true by simp [hp])]
      rw [jget_cons, jget_cons]
      rw [if_neg (show ¬(((k, v) : String × Json).1 == k') = true by simp [hne])]
      rw [if_neg (show ¬((p.1 == k') = true) by simp [hp, hne])]
      exact ih
    · rw [if_neg (show ¬((p.1 == k) = true) by simp [hp])]
      rw [jget_cons, jget_cons]
      by_cases hk2 : p.1 = k'
      · rw [if_pos (show (p.1 == k') = true by simp [hk2]),
            if_pos (show (p.1 == k') = true by simp [hk2])]
      · rw [if_neg (show ¬((p.1 == k') = true) by simp [hk2]),
            if_neg (show ¬((p.1 == k') = true) by simp [hk2])]
        exact ih

theorem jget_append_one (k k' : String) (v : Json) (h : k' ≠ k) :
    ∀ kvs : List (String × Json), jget (kvs ++ [(k, v)]) k' = jget kvs k' := by
  have hne : ¬((k : String) = k') := fun hkk => h hkk.symm
  intro kvs
  induction kvs with
  | nil =>
    simp only [List.nil_append]
    rw [jget_cons, if_neg (show ¬(((k, v) : String × Json).1 == k') = true by simp [hne])]
  | cons p rest ih =>
    simp only [List.cons_append]
    rw [jget_cons, jget_cons]
    by_cases hk2 : p.1 = k'
    · rw [if_pos (show (p.1 == k') = true by simp [hk2]),
          if_pos (show (p.1 == k') = true by simp [hk2])]
    · rw [if_neg (show ¬((p.1 == k') = true) by simp [hk2]),
          if_neg (show ¬((p.1 == k') = true) by simp [hk2])]
      exact ih

theorem jget_setKey_ne (kvs : List (String × Json)) (k k' : String) (v : Json) (h : k' ≠ k) :
    jget (setKey kvs k v) k' = jget kvs k' := by
  unfold setKey
  split
  · exact jget_map_overwrite k k' v h kvs
  · exact jget_append_one k k' v h kvs

theorem jgetD_setKey_ne (kvs : List (String × Json)) (k k' : String) (v d : Json) (h : k' ≠ k) :
    jgetD (setKey kvs k v) k' d = jgetD kvs k' d := by
  unfold jgetD
  rw [jget_setKey_ne kvs k k' v h]

theorem mapElem_layout (j : Json) (x : NormSlide) (h : mapElem j = some x) :
    jgetD x "layout" Json.null = Json.str "title"
    ∨ jgetD x "layout" Json.null = Json.str "bullet"
    ∨ jgetD x "layout" Json.null = Json.str "two_column"
    ∨ jgetD x "layout" Json.null = Json.str "image" := by
  cases j with
  | obj kvs =>
    have h' : mapElemObj kvs = some x := h
    unfold mapElemObj at h'
    split at h'
    · split at h'
      · split_ifs at h' <;> cases h' <;>
          first
          | exact Or.inl rfl
          | exact Or.inr (Or.inl rfl)
          | exact Or.inr (Or.inr (Or.inl rfl))
          | exact Or.inr (Or.inr (Or.inr rfl))
      · cases h'
    · split at h'
      · cases h'; exact Or.inr (Or.inl rfl)
      · split_ifs at h' <;> cases h' <;>
          first
          | exact Or.inl rfl
          | exact Or.inr (Or.inr (Or.inr rfl))
  | null => exact absurd h (by simp [mapElem])
  | bool b => exact absurd h (by simp [mapElem])
  | num nn => exact absurd h (by simp [mapElem])
  | str ss => exact absurd h (by simp [mapElem])
  | arr xs => exact absurd h (by simp [mapElem])

theorem postSlideStep1_shape (s z : NormSlide) (h : postSlideStep1 s = .ok z) :
    z = s ∨ ∃ v, z = setKey s "caption" v := by
  unfold postSlideStep1 at h
  split at h
  · split at h
    · cases h; exact Or.inr ⟨_, rfl⟩
    · exact absurd h (by simp)
  · cases h; exact Or.inl rfl

theorem postSlide_layout (topic : String) (idx : Nat) (s z : NormSlide)
    (h : postSlide topic idx s = .ok z) :
    jgetD z "layout" Json.null = jgetD s "layout" Json.null := by
  unfold postSlide at h
  split at h
  · split at h
    · exact absurd h (by simp)
    · rename_i s1 hs1
      cases h
      rw [jgetD_setKey_ne _ _ _ _ _ (by decide)]
      rcases postSlideStep1_shape s s1 hs1 with rfl | ⟨v, rfl⟩
      · rfl
      · rw [jgetD_setKey_ne _ _ _ _ _ (by decide)]
  · cases h; rfl

theorem postPass_ok (topic : String) :
    ∀ (l : List NormSlide) (k : Nat) (r : List NormSlide), postPass topic k l = .ok r →
      r.length = l.length
      ∧ ∀ i y, l[i]? = some y → ∃ z, r[i]? = some z ∧ postSlide topic (k + i) y = .ok z := by
  intro l
  induction l with
  | nil =>
    intro k r h
    cases h
    exact ⟨rfl, fun i y hy => by simp at hy⟩
  | cons sl rest ih =>
    intro k r h
    unfold postPass at h
    split at h
    · exact absurd h (by simp)
    · rename_i s1 hs1
      split at h
      · exact absurd h (by simp)
      · rename_i rest1 hrest1
        cases h
        obtain ⟨hlen, hidx⟩ := ih (k + 1) rest1 hrest1
        refine ⟨by simp [hlen], ?_⟩
        intro i y hy
        cases i with
        | zero =>
          simp only [List.getElem?_cons_zero, Option.some.injEq] at hy
          subst hy
          exact ⟨s1, by simp, by simpa using hs1⟩
        | succ i =>
          simp only [List.getElem?_cons_succ] at hy
          obtain ⟨z, hz, hpost⟩ := hidx i y hy
          refine ⟨z, by simpa using hz, ?_⟩
          have harith : k + (i + 1) = k + 1 + i := by omega
          rw [harith]
          exact hpost

theorem padSlides_length (m : List NormSlide) (n : Nat) : (padSlides m n).length = n := by
  unfold padSlides
  split_ifs with h1 h2
  · simp only [List.length_append, List.length_map, List.length_range']
    omega
  · simp only [List.length_take]
    omega
  · omega

theorem padSlides_get_lt (m : List NormSlide) (n i : Nat) (h1 : i < m.length) (h2 : i < n) :
    (padSlides m n)[i]? = m[i]? := by
  unfold padSlides
  split_ifs with ha hb
  · rw [List.getElem?_append, if_pos h1]
  · rw [List.getElem?_take, if_pos h2]
  · rfl

theorem padSlides_get_pad (m : List NormSlide) (n i : Nat) (h1 : m.length ≤ i) (h2 : i < n) :
    (padSlides m n)[i]? = some (synthSlide i) := by
  unfold padSlides
  rw [if_pos (by omega)]
  rw [List.getElem?_append, if_neg (by omega)]
  rw [List.getElem?_map]
  rw [List.getElem?_range' _ _ (by omega)]
  have harith : m.length + 1 * (i - m.length) = i := by omega
  rw [harith]
  rfl

theorem postSlide_synthSlide (topic : String) (idx i : Nat) :
    postSlide topic idx (synthSlide i) = .ok (synthSlide i) := rfl

/-- C1 (amended): for every requested slide count N ≥ 1 and every response that
parses to a list, whenever slide normalization completes without raising (the
caption-repair post-pass can raise when an image slide needs caption repair and
its title is a truthy non-string, non-list value; such responses abort with a
generation error instead), it returns exactly N slides: every returned slide is
tagged with one of the four layouts; the slide at each position i below the
count of surviving mapped elements is exactly the i-th surviving element (order
preserved, truncation keeps the first N), transformed only by the per-index
image post-pass; and every position at or beyond the survivor count is the
synthesized title slide "Slide i+1". -/
theorem normalize_slides_card (topic : String) (n : Nat) (data : List Json)
    (s : List NormSlide) (hn : 1 ≤ n) (h : normalize_slides topic n data = .ok s) :
    s.length = n
    ∧ (∀ x ∈ s, jgetD x "layout" Json.null = Json.str "title"
        ∨ jgetD x "layout" Json.null = Json.str "bullet"
        ∨ jgetD x "layout" Json.null = Json.str "two_column"
        ∨ jgetD x "layout" Json.null = Json.str "image")
    ∧ (∀ i y, (data.filterMap mapElem)[i]? = some y → i < n →
        ∃ z, s[i]? = some z ∧ postSlide topic i y = .ok z)
    ∧ (∀ i, (data.filterMap mapElem).length ≤ i → i < n → s[i]? = some (synthSlide i)) := by
  unfold normalize_slides at h
  obtain ⟨hlen, hidx⟩ := postPass_ok topic _ _ _ h
  have hslen : s.length = n := by rw [hlen, padSlides_length]
  have hmain : ∀ i y, (data.filterMap mapElem)[i]? = some y → i < n →
      ∃ z, s[i]? = some z ∧ postSlide topic i y = .ok z := by
    intro i y hy hi
    have hilt : i < (data.filterMap mapElem).length := by
      by_contra hcon
      rw [List.getElem?_eq_none (by omega)] at hy
      exact Option.noConfusion hy
    have hpad : (padSlides (data.filterMap mapElem) n)[i]? = some y := by
      rw [padSlides_get_lt _ _ _ hilt hi]
      exact hy
    obtain ⟨z, hz, hpost⟩ := hidx i y hpad
    exact ⟨z, hz, by simpa using hpost⟩
  have hpadded : ∀ i, (data.filterMap mapElem).length ≤ i → i < n →
      s[i]? = some (synthSlide i) := by
    intro i hge hi
    have hpad : (padSlides (data.filterMap mapElem) n)[i]? = some (synthSlide i) :=
      padSlides_get_pad _ _ _ hge hi
    obtain ⟨z, hz, hpost⟩ := hidx i _ hpad
    have hz' : z = synthSlide i := by
      rw [postSlide_synthSlide topic (0 + i) i] at hpost
      exact (Except.ok.inj hpost).symm
    rw [← hz']
    exact hz
  refine ⟨hslen, ?_, hmain, hpadded⟩
  intro x hx
  obtain ⟨i, hi⟩ := List.mem_iff_getElem?.mp hx
  have hilt : i < s.length := by
    by_contra hcon
    rw [List.getElem?_eq_none (by omega)] at hi
    exact Option.noConfusion hi
  have hiltn : i < n := hslen ▸ hilt
  by_cases hcase : i < (data.filterMap mapElem).length
  · have hy := List.getElem?_eq_getElem hcase
    obtain ⟨z, hz, hpost⟩ := hmain i _ hy hiltn
    have hxz : x = z := by
      rw [hi] at hz
      exact Option.some.inj hz
    subst hxz
    have hyl := postSlide_layout topic i _ x hpost
    have hymem : (data.filterMap mapElem).get ⟨i, hcase⟩ ∈ data.filterMap mapElem :=
      List.get_mem _ i hcase
    obtain ⟨a, _, ha⟩ := List.mem_filterMap.mp hymem
    rw [hyl]
    exact mapElem_layout a _ ha
  · have hpadx := hpadded i (by omega) hiltn
    rw [hi] at hpadx
    have hx' : x = synthSlide i := Option.some.inj hpadx
    subst hx'
    exact Or.inl rfl

/-- C1 counterexample: an image-layout element whose title is the number 5 and
whose caption needs repair makes `generate_content_with_gemini` raise (the slice
`(s.get("title","") or "")[:120]` is a TypeError on an int), so no slide list at
all is returned for this parsed-list response with N = 1. -/
theorem normalize_slides_card_counterexample :
    normalize_slides "t" 1 [Json.obj [("layout", Json.str "image"), ("title", Json.num 5)]]
      = .error () := rfl

/-- Witness for C1 (amended) at a concrete response: one recognized bullet
element and N = 2 give exactly 2 slides. -/
theorem normalize_slides_card_witness :
    ([[("layout", Json.str "bullet"), ("title", Json.str "A"), ("bullets", Json.arr [Json.str "x"])],
      [("layout", Json.str "title"), ("title", Json.str "Slide 2")]] : List NormSlide).length = 2 :=
  (normalize_slides_card "t" 2
    [Json.obj [("layout", Json.str "bullet"), ("title", Json.str "A"),
               ("bullets", Json.arr [Json.str "x"])]]
    [[("layout", Json.str "bullet"), ("title", Json.str "A"), ("bullets", Json.arr [Json.str "x"])],
     [("layout", Json.str "title"), ("title", Json.str "Slide 2")]]
    (by decide) rfl).1

/-! #### Word-section coverage and duplicate resolution (C2), batch abort (C7) -/

theorem createPageSecs_ok (lookup : String → Option String)
    (fallback : String → Except Unit String) (pageNum : Int) :
    ∀ (titles : List String) (idx gIdx : Nat) (secs : List DbSection),
      createPageSecs lookup fallback pageNum titles idx gIdx = .ok secs →
      secs.map (fun s => s.title) = titles
      ∧ ∀ s ∈ secs, resolveContent lookup fallback s.title = .ok s.content := by
  intro titles
  induction titles with
  | nil =>
    intro idx gIdx secs h
    cases h
    exact ⟨rfl, by simp⟩
  | cons t ts ih =>
    intro idx gIdx secs h
    unfold createPageSecs at h
    split at h
    · exact absurd h (by simp)
    · rename_i c hc
      split at h
      · exact absurd h (by simp)
      · rename_i rest hrest
        cases h
        obtain ⟨hmap, hres⟩ := ih (idx + 1) (gIdx + 1) rest hrest
        refine ⟨by simp [hmap], ?_⟩
        intro s hs
        rcases List.mem_cons.mp hs with rfl | hmem
        · exact hc
        · exact hres s hmem

theorem createPagesLoop_ok (lookup : String → Option String)
    (fallback : String → Except Unit String) :
    ∀ (pages : List PageCfg) (gIdx : Nat) (secs : List DbSection),
      createPagesLoop lookup fallback pages gIdx = .ok secs →
      secs.map (fun s => s.title) = pages.flatMap (fun p => p.sections.take 3)
      ∧ ∀ s ∈ secs, resolveContent lookup fallback s.title = .ok s.content := by
  intro pages
  induction pages with
  | nil =>
    intro gIdx secs h
    cases h
    exact ⟨by simp, by simp⟩
  | cons p rest ih =>
    intro gIdx secs h
    unfold createPagesLoop at h
    split at h
    · exact absurd h (by simp)
    · rename_i psecs hpsecs
      split at h
      · exact absurd h (by simp)
      · rename_i rsecs hrsecs
        cases h
        obtain ⟨hm1, hr1⟩ := createPageSecs_ok lookup fallback p.page_number _ 1 gIdx psecs hpsecs
        obtain ⟨hm2, hr2⟩ := ih _ rsecs hrsecs
        refine ⟨by simp [hm1, hm2], ?_⟩
        intro s hs
        rcases List.mem_append.mp hs with hmem | hmem
        · exact hr1 s hmem
        · exact hr2 s hmem

theorem contentByHeading_acc (gen : List GenSection) :
    ∀ (acc : String → Option String) (k : String),
      List.foldl dictInsert acc gen k
        = (match gen.reverse.find? (fun g => g.heading == k) with
           | some g => some g.content
           | none => acc k) := by
  induction gen with
  | nil => intro acc k; rfl
  | cons g rest ih =>
    intro acc k
    have hfold : List.foldl dictInsert acc (g :: rest)
        = List.foldl dictInsert (dictInsert acc g) rest := rfl
    rw [hfold, ih]
    have hrev : (g :: rest).reverse = rest.reverse ++ [g] := by simp
    rw [hrev, List.find?_append]
    cases hf : rest.reverse.find? (fun x => x.heading == k) with
    | some gf => simp [hf]
    | none =>
      simp only [hf, Option.none_orElse]
      by_cases hk : g.heading = k
      · simp [List.find?, hk, dictInsert]
      · have hbk : (g.heading == k) = false := by simp [hk]
        simp [List.find?, hbk, dictInsert]
        intro hkg
        exact absurd hkg.symm hk

/-- C2 (amended): for pages given in ascending page-number order with at most 3
sections per page, the paged creation path produces exactly one (heading,
content) pair per requested heading, in the input order; every created
section's content is the one resolved by `resolveContent` for its heading; and
because the heading-to-content dict is built by insertion with overwrite,
duplicate headings all resolve deterministically to the LAST matching element
of the order_index-sorted generated response (not the first). -/
theorem create_paged_coverage (topic : String) (pagesCfg : List PageCfg)
    (resp : List GenSection) (fb : String → Except Unit String) (secs : List DbSection)
    (hsorted : List.Pairwise pageCfgLe pagesCfg)
    (hcap : ∀ p ∈ pagesCfg, p.sections.length ≤ 3)
    (h : create_word_project_paged topic pagesCfg (.ok resp) fb = .ok secs) :
    secs.map (fun s => s.title) = pagesCfg.flatMap (fun p => p.sections)
    ∧ (∀ s ∈ secs,
        resolveContent (contentByHeading (generate_word_sections topic resp)) fb s.title
          = .ok s.content)
    ∧ (∀ k, contentByHeading (generate_word_sections topic resp) k
          = (match (generate_word_sections topic resp).reverse.find?
                (fun g => g.heading == k) with
             | some g => some g.content
             | none => none)) := by
  have hs : List.insertionSort pageCfgLe pagesCfg = pagesCfg :=
    List.Sorted.insertionSort_eq hsorted
  have h' : createPagesLoop (contentByHeading (generate_word_sections topic resp)) fb
      pagesCfg 1 = .ok secs := by
    unfold create_word_project_paged at h
    rwa [hs] at h
  obtain ⟨hmap, hres⟩ := createPagesLoop_ok _ _ pagesCfg 1 secs h'
  refine ⟨?_, hres, fun k => contentByHeading_acc _ _ k⟩
  rw [hmap]
  have htake : ∀ ps : List PageCfg, (∀ p ∈ ps, p.sections.length ≤ 3) →
      ps.flatMap (fun p => p.sections.take 3) = ps.flatMap (fun p => p.sections) := by
    intro ps hps
    induction ps with
    | nil => rfl
    | cons p rest ihp =>
      have h1 : p.sections.take 3 = p.sections :=
        List.take_of_length_le (hps p (by simp))
      simp [h1, ihp (fun q hq => hps q (by simp [hq]))]
  exact htake pagesCfg hcap

/-- C2 counterexample: with requested heading "A" and a response containing two
elements for "A" (contents "X" then "Y" in order_index order), the created
section's content is "Y" — the last matching element, not the first-match "X". -/
theorem create_paged_first_match_counterexample :
    create_word_project_paged "T" [⟨1, ["A"]⟩]
        (.ok [⟨"A", 1, "X"⟩, ⟨"A", 2, "Y"⟩]) (fun _ => .ok "FB")
      = .ok [⟨"A", 1, 1, 1, "Y", [⟨1, "initial generation", "Y"⟩]⟩]
    ∧ ("Y" : String) ≠ "X" := ⟨rfl, by decide⟩

/-- Witness for C2 (amended) at the concrete duplicate-heading input. -/
theorem create_paged_coverage_witness :
    ([⟨"A", 1, 1, 1, "Y", [⟨1, "initial generation", "Y"⟩]⟩] : List DbSection).map
      (fun s => s.title) = ["A"] :=
  (create_paged_coverage "T" [⟨1, ["A"]⟩] [⟨"A", 1, "X"⟩, ⟨"A", 2, "Y"⟩] (fun _ => .ok "FB")
    [⟨"A", 1, 1, 1, "Y", [⟨1, "initial generation", "Y"⟩]⟩]
    (by simp) (by decide) rfl).1

theorem createPageSecs_err (lookup : String → Option String)
    (fallback : String → Except Unit String) (pageNum : Int) :
    ∀ (titles : List String) (idx gIdx : Nat) (t : String), t ∈ titles →
      resolveContent lookup fallback t = .error () →
      createPageSecs lookup fallback pageNum titles idx gIdx = .error () := by
  intro titles
  induction titles with
  | nil => intro idx gIdx t ht _; simp at ht
  | cons t0 ts ih =>
    intro idx gIdx t ht herr
    unfold createPageSecs
    rcases List.mem_cons.mp ht with rfl | hmem
    · rw [herr]
    · cases hr : resolveContent lookup fallback t0 with
      | error e => cases e; rfl
      | ok c =>
        simp only [hr]
        rw [ih (idx + 1) (gIdx + 1) t hmem herr]

theorem createPagesLoop_err (lookup : String → Option String)
    (fallback : String → Except Unit String) :
    ∀ (pages : List PageCfg) (gIdx : Nat) (t : String),
      t ∈ pages.flatMap (fun p => p.sections.take 3) →
      resolveContent lookup fallback t = .error () →
      createPagesLoop lookup fallback pages gIdx = .error () := by
  intro pages
  induction pages with
  | nil => intro gIdx t ht _; simp at ht
  | cons p rest ih =>
    intro gIdx t ht herr
    have ht' : t ∈ p.sections.take 3 ∨ t ∈ rest.flatMap (fun q => q.sections.take 3) := by
      simpa using ht
    unfold createPagesLoop
    rcases ht' with hmem | hmem
    · rw [createPageSecs_err lookup fallback p.page_number _ 1 gIdx t hmem herr]
    · cases hps : createPageSecs lookup fallback p.page_number (p.sections.take 3) 1 gIdx with
      | error e => cases e; rfl
      | ok psecs =>
        simp only [hps]
        rw [ih _ t hmem herr]

/-- C7 (amended): the paged creation path is all-or-nothing in both directions:
a failed batch generation call aborts the whole request, and a failed
per-heading fallback call (triggered by a missing or blank resolved content)
also aborts the whole request — the exception propagates and no section row is
committed; the failed heading's body does NOT become the empty string. -/
theorem create_paged_abort (topic : String) (pagesCfg : List PageCfg)
    (fb : String → Except Unit String) :
    (create_word_project_paged topic pagesCfg (.error ()) fb = .error ())
    ∧ ∀ (resp : List GenSection) (t : String),
        t ∈ (List.insertionSort pageCfgLe pagesCfg).flatMap (fun p => p.sections.take 3) →
        resolveContent (contentByHeading (generate_word_sections topic resp)) fb t
          = .error () →
        create_word_project_paged topic pagesCfg (.ok resp) fb = .error () := by
  refine ⟨rfl, ?_⟩
  intro resp t hmem herr
  unfold create_word_project_paged
  exact createPagesLoop_err _ _ _ 1 t hmem herr

/-- C7 counterexample: heading "B" gets no content from the batch response and
the fallback call fails; the whole request aborts with the generation error —
no document with an empty "B" body (and a created "A" section) is produced. -/
theorem create_paged_abort_counterexample :
    create_word_project_paged "T" [⟨1, ["A", "B"]⟩]
      (.ok [⟨"A", 1, "hello"⟩]) (fun _ => .error ()) = .error () := rfl

/-- Witness for C7 (amended) at a concrete input with an always-failing fallback. -/
theorem create_paged_abort_witness :
    create_word_project_paged "T2" [⟨2, ["C"]⟩] (.ok []) (fun _ => .error ())
      = .error () :=
  (create_paged_abort "T2" [⟨2, ["C"]⟩] (fun _ => .error ())).2 [] "C" (by decide) rfl

/-! #### Deterministic image placeholders (C8) -/

theorem digitChar_isDigit (m : Nat) (h : m < 10) : (Nat.digitChar m).isDigit = true := by
  interval_cases m <;> decide

theorem toDigitsCore_digits :
    ∀ (fuel n : Nat) (acc : List Char), (∀ c ∈ acc, c.isDigit = true) →
      ∀ c ∈ Nat.toDigitsCore 10 fuel n acc, c.isDigit = true := by
  intro fuel
  induction fuel with
  | zero => intro n acc hacc c hc; exact hacc c hc
  | succ fuel ih =>
    intro n acc hacc c hc
    simp only [Nat.toDigitsCore] at hc
    have hstep : ∀ c2 ∈ (Nat.digitChar (n % 10)) :: acc, c2.isDigit = true := by
      intro c2 hc2
      rcases List.mem_cons.mp hc2 with rfl | hm
      · exact digitChar_isDigit _ (Nat.mod_lt _ (by decide))
      · exact hacc c2 hm
    split at hc
    · exact hstep c hc
    · exact ih (n / 10) _ hstep c hc

theorem toDigitsCore_ne_nil :
    ∀ (fuel n : Nat) (acc : List Char), acc ≠ [] → Nat.toDigitsCore 10 fuel n acc ≠ [] := by
  intro fuel
  induction fuel with
  | zero => intro n acc hacc; exact hacc
  | succ fuel ih =>
    intro n acc hacc
    simp only [Nat.toDigitsCore]
    split
    · exact List.cons_ne_nil _ _
    · exact ih (n / 10) _ (List.cons_ne_nil _ _)

theorem repr_data_digits (n : Nat) :
    (Nat.repr n).data ≠ [] ∧ ∀ c ∈ (Nat.repr n).data, c.isDigit = true := by
  have hdata : (Nat.repr n).data = Nat.toDigits 10 n := rfl
  rw [hdata]
  unfold Nat.toDigits
  constructor
  · simp only [Nat.toDigitsCore]
    split
    · exact List.cons_ne_nil _ _
    · exact toDigitsCore_ne_nil _ _ _ (List.cons_ne_nil _ _)
  · exact toDigitsCore_digits (n + 1) n [] (by simp)

/-- The "slide_" fallback of the seed never fires: the digits of the index
always survive the alphanumeric filter. -/
theorem seedOf_eq (topic : String) (i : Nat) :
    seedOf topic i = String.mk ((topic ++ "_" ++ Nat.repr i).data.filter isAlnumChar) := by
  unfold seedOf
  rw [if_neg ?hne]
  case hne =>
    intro hcon
    have hdata := congrArg String.data hcon
    simp only [String.data_append, List.filter_append] at hdata
    have h3 := (List.append_eq_nil.mp hdata).2
    obtain ⟨hne, hdig⟩ := repr_data_digits i
    have hfil : (Nat.repr i).data.filter isAlnumChar = (Nat.repr i).data := by
      apply List.filter_eq_self.mpr
      intro c hc
      unfold isAlnumChar
      simp [hdig c hc]
    rw [hfil] at h3
    exact hne h3

theorem jget_map_overwrite_same (k : String) (v : Json) :
    ∀ kvs : List (String × Json), (kvs.find? (fun p => p.1 == k)).isSome →
      jget (kvs.map (fun p => if p.1 == k then (k, v) else p)) k = some v := by
  intro kvs
  induction kvs with
  | nil => intro hsome; simp [List.find?] at hsome
  | cons p rest ih =>
    intro hsome
    simp only [List.map_cons]
    by_cases hp : p.1 = k
    · rw [if_pos (show (p.1 == k) = true by simp [hp])]
      rw [jget_cons, if_pos (show (((k, v) : String × Json).1 == k) = true by simp)]
    · rw [if_neg (show ¬((p.1 == k) = true) by simp [hp])]
      rw [jget_cons, if_neg (show ¬((p.1 == k) = true) by simp [hp])]
      apply ih
      rw [List.find?] at hsome
      rw [show (p.1 == k) = false by simp [hp]] at hsome
      exact hsome

theorem jget_append_one_same (k : String) (v : Json) :
    ∀ kvs : List (String × Json), (kvs.find? (fun p => p.1 == k)) = none →
      jget (kvs ++ [(k, v)]) k = some v := by
  intro kvs
  induction kvs with
  | nil =>
    intro _
    simp only [List.nil_append]
    rw [jget_cons, if_pos (show (((k, v) : String × Json).1 == k) = true by simp)]
  | cons p rest ih =>
    intro hnone
    simp only [List.cons_append]
    rw [List.find?] at hnone
    cases hb : (p.1 == k) with
    | true => rw [hb] at hnone; exact absurd hnone (by simp)
    | false =>
      rw [hb] at hnone
      rw [jget_cons, if_neg (by simp [hb])]
      exact ih hnone

theorem jget_setKey_same (kvs : List (String × Json)) (k : String) (v : Json) :
    jget (setKey kvs k v) k = some v := by
  unfold setKey
  split
  · rename_i hsome
    exact jget_map_overwrite_same k v kvs hsome
  · rename_i hnone
    exact jget_append_one_same k v kvs (Option.not_isSome_iff_eq_none.mp hnone)

theorem postSlideStep1_caption (s s1 : NormSlide) (h : postSlideStep1 s = .ok s1) :
    ∃ v, jget s1 "caption" = some v := by
  unfold postSlideStep1 at h
  split at h
  · split at h
    · cases h; exact ⟨_, jget_setKey_same s "caption" _⟩
    · exact absurd h (by simp)
  · rename_i hcond
    cases h
    cases hc : jget s "caption" with
    | some v => exact ⟨v, rfl⟩
    | none =>
      exfalso
      apply hcond
      have hnull : jgetD s "caption" Json.null = Json.null := by
        unfold jgetD
        rw [hc]
        rfl
      rw [hnull]
      rfl

theorem postSlide_image (topic : String) (idx : Nat) (s z : NormSlide)
    (h : postSlide topic idx s = .ok z) (himg : isImageSlide s = true) :
    jget z "image_url"
      = some (Json.str ("https://picsum.photos/seed/" ++ seedOf topic idx ++ "/1200/800"))
    ∧ ∃ capv, jget z "caption" = some capv := by
  unfold postSlide at h
  rw [if_pos himg] at h
  split at h
  · exact absurd h (by simp)
  · rename_i s1 hs1
    cases h
    constructor
    · exact jget_setKey_same s1 "image_url" _
    · obtain ⟨v, hv⟩ := postSlideStep1_caption s s1 hs1
      exact ⟨v, by rw [jget_setKey_ne _ _ _ _ (by decide), hv]⟩

/-- C8 (amended): for every image-layout slide at position i of a normalized
deck for topic t, the placeholder reference is the deterministic pure function
of (t, i) given by the seed "t_i" with all non-alphanumeric characters removed
(the "slide_i" fallback never fires, since the digits of i survive the filter);
normalizing the same topic at the same index always yields the same seed and
image_url. Every image slide carries a caption key whose value falls back to
the first 120 characters of the slide title — which is the EMPTY string when
both caption and title are empty, so a non-empty caption is not guaranteed. -/
theorem image_slide_placeholder (topic : String) (n : Nat) (data : List Json)
    (s : List NormSlide) (h : normalize_slides topic n data = .ok s)
    (i : Nat) (x : NormSlide) (hx : s[i]? = some x) (himg : isImageSlide x = true) :
    jget x "image_url"
      = some (Json.str ("https://picsum.photos/seed/" ++ seedOf topic i ++ "/1200/800"))
    ∧ seedOf topic i = String.mk ((topic ++ "_" ++ Nat.repr i).data.filter isAlnumChar)
    ∧ ∃ capv, jget x "caption" = some capv := by
  unfold normalize_slides at h
  obtain ⟨hlen, hidx⟩ := postPass_ok topic _ _ _ h
  have hilt : i < (padSlides (data.filterMap mapElem) n).length := by
    by_contra hcon
    have hnone : s[i]? = none := by
      have hsl : s.length ≤ i := by omega
      exact List.getElem?_eq_none hsl
    rw [hnone] at hx
    exact Option.noConfusion hx
  have hy := List.getElem?_eq_getElem hilt
  obtain ⟨z, hz, hpost⟩ := hidx i _ hy
  have hzx : z = x := by
    rw [hx] at hz
    exact (Option.some.inj hz).symm
  subst hzx
  have hpost' : postSlide topic i ((padSlides (data.filterMap mapElem) n).get ⟨i, hilt⟩)
      = .ok z := by simpa using hpost
  have hyimg : isImageSlide ((padSlides (data.filterMap mapElem) n).get ⟨i, hilt⟩) = true := by
    unfold isImageSlide at himg ⊢
    rw [← postSlide_layout topic i _ z hpost']
    exact himg
  obtain ⟨hurl, hcap⟩ := postSlide_image topic i _ z hpost' hyimg
  exact ⟨hurl, seedOf_eq topic i, hcap⟩

/-- C8 counterexample: an image element with no caption and no title normalizes
to an image slide whose caption is the EMPTY string (the fallback
`title[:120]` of an empty title), refuting the guaranteed non-empty caption. -/
theorem image_slide_placeholder_counterexample :
    normalize_slides "t" 1 [Json.obj [("layout", Json.str "image")]]
      = .ok [[("layout", Json.str "image"), ("title", Json.str ""), ("caption", Json.str ""),
              ("image_url", Json.str "https://picsum.photos/seed/t0/1200/800")]]
    ∧ jget [("layout", Json.str "image"), ("title", Json.str ""), ("caption", Json.str ""),
            ("image_url", Json.str "https://picsum.photos/seed/t0/1200/800")] "caption"
        = some (Json.str "") := ⟨rfl, rfl⟩

/-- Witness for C8 (amended): topic "Ai!" at index 0 gives the seed "Ai0". -/
theorem image_slide_placeholder_witness :
    jget [("layout", Json.str "image"), ("title", Json.str ""), ("caption", Json.str "a cap"),
          ("image_url", Json.str "https://picsum.photos/seed/Ai0/1200/800")] "image_url"
      = some (Json.str "https://picsum.photos/seed/Ai0/1200/800") :=
  (image_slide_placeholder "Ai!" 1
    [Json.obj [("layout", Json.str "image"), ("caption", Json.str "a cap")]]
    [[("layout", Json.str "image"), ("title", Json.str ""), ("caption", Json.str "a cap"),
      ("image_url", Json.str "https://picsum.photos/seed/Ai0/1200/800")]]
    rfl 0
    [("layout", Json.str "image"), ("title", Json.str ""), ("caption", Json.str "a cap"),
     ("image_url", Json.str "https://picsum.photos/seed/Ai0/1200/800")]
    rfl rfl).1

/-! #### Sanitizer idempotence (C6): adjacency machinery -/

theorem adjOK_cons_iff (R : α → α → Prop) (x : α) (l : List α) :
    adjOK R (x :: l) ↔ (∀ h, l.head? = some h → R x h) ∧ adjOK R l := by
  cases l with
  | nil => simp [adjOK]
  | cons y ys =>
    constructor
    · rintro ⟨hxy, hrest⟩
      refine ⟨?_, hrest⟩
      intro h hh
      rw [List.head?_cons] at hh
      cases hh
      exact hxy
    · rintro ⟨hhead, hrest⟩
      exact ⟨hhead y rfl, hrest⟩

theorem adjOK_tail (R : α → α → Prop) (x : α) (l : List α) (h : adjOK R (x :: l)) :
    adjOK R l := by
  cases l with
  | nil => trivial
  | cons y ys => exact h.2

theorem adjOK_append_right (R : α → α → Prop) :
    ∀ (s m : List α), adjOK R (s ++ m) → adjOK R m := by
  intro s
  induction s with
  | nil => intro m h; exact h
  | cons x s ih => intro m h; exact ih m (adjOK_tail R x (s ++ m) h)

theorem adjOK_append_left (R : α → α → Prop) :
    ∀ (m t : List α), adjOK R (m ++ t) → adjOK R m := by
  intro m
  induction m with
  | nil => intro t _; trivial
  | cons x m ih =>
    intro t h
    cases m with
    | nil => trivial
    | cons y m2 =>
      obtain ⟨hxy, hrest⟩ := h
      exact ⟨hxy, ih t hrest⟩

theorem adjOK_append (R : α → α → Prop) (t : List α) (h2 : adjOK R t) :
    ∀ m : List α, adjOK R m →
      (∀ x y, m.getLast? = some x → t.head? = some y → R x y) → adjOK R (m ++ t)
  | [], _, _ => by simpa using h2
  | [x], _, hb => (adjOK_cons_iff R x t).mpr ⟨fun h hh => hb x h rfl hh, h2⟩
  | x :: y :: m2, h1, hb => by
    obtain ⟨hxy, hrest⟩ := h1
    refine ⟨hxy, adjOK_append R t h2 (y :: m2) hrest ?_⟩
    intro a b ha hbh
    exact hb a b (by rw [List.getLast?_cons_cons]; exact ha) hbh

/-! #### Sanitizer idempotence (C6): strip and dropWhile facts -/

theorem exists_dropWhile_eq (p : α → Bool) :
    ∀ l : List α, ∃ s, l = s ++ l.dropWhile p := by
  intro l
  induction l with
  | nil => exact ⟨[], rfl⟩
  | cons x xs ih =>
    by_cases hx : p x
    · obtain ⟨s, hs⟩ := ih
      refine ⟨x :: s, ?_⟩
      rw [List.dropWhile_cons, if_pos hx, List.cons_append, ← hs]
    · refine ⟨[], ?_⟩
      rw [List.dropWhile_cons, if_neg hx, List.nil_append]

theorem head?_dropWhile (p : α → Bool) :
    ∀ (l : List α) (x : α), (l.dropWhile p).head? = some x → p x = false := by
  intro l
  induction l with
  | nil => intro x h; simp at h
  | cons a as ih =>
    intro x h
    rw [List.dropWhile_cons] at h
    split at h
    · exact ih x h
    · rename_i hpa
      rw [List.head?_cons] at h
      cases h
      exact Bool.eq_false_iff.mpr hpa

theorem dropWhile_eq_self_of_head (p : α → Bool) (l : List α)
    (h : ∀ x, l.head? = some x → p x = false) : l.dropWhile p = l := by
  cases l with
  | nil => rfl
  | cons a as =>
    rw [List.dropWhile_cons, if_neg (by simp [h a rfl])]

theorem exists_dropTrail_eq (p : Char → Bool) (l : List Char) :
    ∃ t, l = dropTrail p l ++ t := by
  obtain ⟨s, hs⟩ := exists_dropWhile_eq p l.reverse
  refine ⟨s.reverse, ?_⟩
  unfold dropTrail
  calc l = l.reverse.reverse := by simp
    _ = (s ++ l.reverse.dropWhile p).reverse := by rw [← hs]
    _ = (l.reverse.dropWhile p).reverse ++ s.reverse := by simp

theorem getLast?_dropTrail (p : Char → Bool) (l : List Char) (x : Char)
    (h : (dropTrail p l).getLast? = some x) : p x = false := by
  unfold dropTrail at h
  rw [List.getLast?_reverse] at h
  exact head?_dropWhile p _ x h

theorem dropTrail_eq_self_of_last (p : Char → Bool) (l : List Char)
    (h : ∀ x, l.getLast? = some x → p x = false) : dropTrail p l = l := by
  unfold dropTrail
  rw [dropWhile_eq_self_of_head p l.reverse
    (fun x hx => h x (by rwa [List.head?_reverse] at hx)), List.reverse_reverse]

theorem pyStrip_sandwich (l : List Char) : ∃ s t, l = s ++ pyStrip l ++ t := by
  obtain ⟨s, hs⟩ := exists_dropWhile_eq isPySpace l
  obtain ⟨t, ht⟩ := exists_dropTrail_eq isPySpace (l.dropWhile isPySpace)
  refine ⟨s, t, ?_⟩
  conv_lhs => rw [hs, ht]
  simp [pyStrip, List.append_assoc]

theorem mem_of_mem_pyStrip (l : List Char) (c : Char) (h : c ∈ pyStrip l) : c ∈ l := by
  obtain ⟨s, t, hst⟩ := pyStrip_sandwich l
  rw [hst]
  simp [h]

theorem pairFree_pyStrip (a b : Char) (l : List Char) (h : pairFree a b l) :
    pairFree a b (pyStrip l) := by
  obtain ⟨s, t, hst⟩ := pyStrip_sandwich l
  rw [hst, List.append_assoc] at h
  exact adjOK_append_left _ _ t (adjOK_append_right _ s _ h)

theorem pyStrip_head_not_space (l : List Char) (x : Char) (xs : List Char)
    (h : pyStrip l = x :: xs) : isPySpace x = false := by
  obtain ⟨t, ht⟩ := exists_dropTrail_eq isPySpace (l.dropWhile isPySpace)
  apply head?_dropWhile isPySpace l
  rw [ht]
  have hd : dropTrail isPySpace (l.dropWhile isPySpace) = x :: xs := h
  rw [hd]
  rfl

theorem pyStrip_last_not_space (l : List Char) (x : Char)
    (h : (pyStrip l).getLast? = some x) : isPySpace x = false :=
  getLast?_dropTrail isPySpace _ x h

theorem pyStrip_eq_self (l : List Char)
    (hh : ∀ x, l.head? = some x → isPySpace x = false)
    (hl : ∀ x, l.getLast? = some x → isPySpace x = false) : pyStrip l = l := by
  unfold pyStrip
  rw [dropWhile_eq_self_of_head _ _ hh]
  exact dropTrail_eq_self_of_last _ _ hl

theorem pyStrip_idem (l : List Char) : pyStrip (pyStrip l) = pyStrip l := by
  apply pyStrip_eq_self
  · intro c hc
    cases hpy : pyStrip l with
    | nil => rw [hpy] at hc; simp at hc
    | cons x xs =>
      rw [hpy, List.head?_cons] at hc
      injection hc with hxc
      rw [← hxc]
      exact pyStrip_head_not_space l x xs hpy
  · intro c hc
    exact pyStrip_last_not_space l c hc

theorem map_eq_self_of (f : α → α) :
    ∀ l : List α, (∀ x ∈ l, f x = x) → l.map f = l
  | [], _ => rfl
  | x :: xs, h => by
    simp only [List.map_cons]
    rw [h x (by simp), map_eq_self_of f xs (fun y hy => h y (List.mem_cons_of_mem x hy))]

/-! #### Sanitizer idempotence (C6): replacement and splitting facts -/

theorem mem_replace2 (a b r : Char) :
    ∀ l : List Char, ∀ c ∈ replace2 a b r l, c ∈ l ∨ c = r
  | [] => by simp [replace2]
  | [x] => by simp [replace2]
  | x :: y :: rest => by
    intro c hc
    simp only [replace2] at hc
    split at hc
    · rcases List.mem_cons.mp hc with rfl | hm
      · exact Or.inr rfl
      · rcases mem_replace2 a b r rest c hm with h1 | h1
        · exact Or.inl (by simp [h1])
        · exact Or.inr h1
    · rcases List.mem_cons.mp hc with rfl | hm
      · exact Or.inl (by simp)
      · rcases mem_replace2 a b r (y :: rest) c hm with h1 | h1
        · exact Or.inl (List.mem_cons_of_mem x h1)
        · exact Or.inr h1

theorem head?_replace2 (a b r : Char) :
    ∀ l : List Char, ∀ h, (replace2 a b r l).head? = some h → l.head? = some h ∨ h = r
  | [] => by simp [replace2]
  | [x] => by simp [replace2]
  | x :: y :: rest => by
    intro h hh
    simp only [replace2] at hh
    split at hh
    · rw [List.head?_cons] at hh
      injection hh with hh2
      exact Or.inr hh2.symm
    · rw [List.head?_cons] at hh
      injection hh with hh2
      rw [List.head?_cons, hh2]
      exact Or.inl rfl

theorem replace2_pairFree (a b r : Char) (ha : r ≠ a) (hb : r ≠ b) :
    ∀ l : List Char, pairFree a b (replace2 a b r l)
  | [] => trivial
  | [x] => trivial
  | x :: y :: rest => by
    simp only [replace2]
    split
    · refine (adjOK_cons_iff _ r _).mpr
        ⟨?_, replace2_pairFree a b r ha hb rest⟩
      intro h _
      exact fun hcon => ha hcon.1
    · rename_i hxy
      refine (adjOK_cons_iff _ x _).mpr
        ⟨?_, replace2_pairFree a b r ha hb (y :: rest)⟩
      intro h hh
      rcases head?_replace2 a b r (y :: rest) h hh with h1 | h1
      · rw [List.head?_cons] at h1
        injection h1 with h2
        rw [← h2]
        exact hxy
      · rw [h1]
        exact fun hcon => hb hcon.2

theorem replace2_eq_self_of_pairFree (a b r : Char) :
    ∀ l : List Char, pairFree a b l → replace2 a b r l = l
  | [], _ => rfl
  | [x], _ => rfl
  | x :: y :: rest, h => by
    obtain ⟨hxy, hrest⟩ := h
    simp only [replace2]
    rw [if_neg hxy, replace2_eq_self_of_pairFree a b r (y :: rest) hrest]

theorem replace2_eq_self_of_no_a (a b r : Char) :
    ∀ l : List Char, (∀ c ∈ l, c ≠ a) → replace2 a b r l = l
  | [], _ => rfl
  | [x], _ => rfl
  | x :: y :: rest, h => by
    simp only [replace2]
    rw [if_neg (fun hc => h x (by simp) hc.1),
      replace2_eq_self_of_no_a a b r (y :: rest) (fun c hc => h c (List.mem_cons_of_mem x hc))]

theorem mapCR_no_cr (l : List Char) : ∀ c ∈ mapCR l, c ≠ '\r' := by
  intro c hc
  obtain ⟨d, _, hd⟩ := List.mem_map.mp hc
  intro hcon
  subst hcon
  by_cases hdc : d = '\r'
  · rw [if_pos hdc] at hd
    exact absurd hd (by decide)
  · rw [if_neg hdc] at hd
    exact hdc hd

theorem mapCR_eq_self (l : List Char) (h : ∀ c ∈ l, c ≠ '\r') : mapCR l = l :=
  map_eq_self_of _ l (fun c hc => by rw [if_neg (h c hc)])

theorem splitNL_ne_nil : ∀ l : List Char, splitNL l ≠ []
  | [] => by simp [splitNL]
  | c :: rest => by
    cases hs : splitNL rest with
    | nil => exact absurd hs (splitNL_ne_nil rest)
    | cons seg segs =>
      simp only [splitNL, hs]
      split <;> simp

theorem splitNL_no_nl : ∀ l : List Char, ∀ seg ∈ splitNL l, ¬('\n' ∈ seg)
  | [] => by
    intro seg hseg hmem
    simp [splitNL] at hseg
    subst hseg
    simp at hmem
  | c :: rest => by
    intro seg hseg hmem
    cases hs : splitNL rest with
    | nil => exact absurd hs (splitNL_ne_nil rest)
    | cons s0 ss =>
      simp only [splitNL, hs] at hseg
      by_cases hc : c = '\n'
      · rw [if_pos hc] at hseg
        rcases List.mem_cons.mp hseg with rfl | hseg2
        · simp at hmem
        · exact splitNL_no_nl rest seg (by rw [hs]; exact hseg2) hmem
      · rw [if_neg hc] at hseg
        rcases List.mem_cons.mp hseg with rfl | hseg2
        · rcases List.mem_cons.mp hmem with h2 | h2
          · exact hc h2.symm
          · exact splitNL_no_nl rest s0 (by rw [hs]; simp) h2
        · exact splitNL_no_nl rest seg (by rw [hs]; exact List.mem_cons_of_mem s0 hseg2) hmem

theorem splitNL_chars : ∀ l : List Char, ∀ seg ∈ splitNL l, ∀ c ∈ seg, c ∈ l
  | [] => by
    intro seg hseg c hc
    simp [splitNL] at hseg
    subst hseg
    simp at hc
  | d :: rest => by
    intro seg hseg c hc
    cases hs : splitNL rest with
    | nil => exact absurd hs (splitNL_ne_nil rest)
    | cons s0 ss =>
      simp only [splitNL, hs] at hseg
      by_cases hd : d = '\n'
      · rw [if_pos hd] at hseg
        rcases List.mem_cons.mp hseg with rfl | hseg2
        · simp at hc
        · exact List.mem_cons_of_mem d
            (splitNL_chars rest seg (by rw [hs]; exact hseg2) c hc)
      · rw [if_neg hd] at hseg
        rcases List.mem_cons.mp hseg with rfl | hseg2
        · rcases List.mem_cons.mp hc with rfl | h2
          · simp
          · exact List.mem_cons_of_mem d
              (splitNL_chars rest s0 (by rw [hs]; simp) c h2)
        · exact List.mem_cons_of_mem d
            (splitNL_chars rest seg (by rw [hs]; exact List.mem_cons_of_mem s0 hseg2) c hc)

theorem splitNL_head : ∀ (l : List Char) (s0 : List Char) (ss : List (List Char)),
    splitNL l = s0 :: ss → ∀ h, s0.head? = some h → l.head? = some h
  | [] => by
    intro s0 ss heq h hh
    simp [splitNL] at heq
    rw [heq.1] at hh
    simp at hh
  | c :: rest => by
    intro s0 ss heq h hh
    cases hs : splitNL rest with
    | nil => exact absurd hs (splitNL_ne_nil rest)
    | cons t0 ts =>
      simp only [splitNL, hs] at heq
      by_cases hc : c = '\n'
      · rw [if_pos hc] at heq
        injection heq with h1 h2
        rw [← h1] at hh
        simp at hh
      · rw [if_neg hc] at heq
        injection heq with h1 h2
        rw [← h1, List.head?_cons] at hh
        injection hh with h3
        rw [List.head?_cons, h3]

theorem splitNL_pairFree (a b : Char) :
    ∀ l : List Char, pairFree a b l → ∀ seg ∈ splitNL l, pairFree a b seg
  | [] => by
    intro _ seg hseg
    simp [splitNL] at hseg
    subst hseg
    trivial
  | c :: rest => by
    intro hpf seg hseg
    have hrest : pairFree a b rest := adjOK_tail _ c rest hpf
    cases hs : splitNL rest with
    | nil => exact absurd hs (splitNL_ne_nil rest)
    | cons s0 ss =>
      simp only [splitNL, hs] at hseg
      by_cases hc : c = '\n'
      · rw [if_pos hc] at hseg
        rcases List.mem_cons.mp hseg with rfl | h2
        · trivial
        · exact splitNL_pairFree a b rest hrest seg (by rw [hs]; exact h2)
      · rw [if_neg hc] at hseg
        rcases List.mem_cons.mp hseg with rfl | h2
        · refine (adjOK_cons_iff _ c s0).mpr
            ⟨?_, splitNL_pairFree a b rest hrest s0 (by rw [hs]; simp)⟩
          intro h hh
          have hl : rest.head? = some h := splitNL_head rest s0 ss hs h hh
          exact ((adjOK_cons_iff _ c rest).mp hpf).1 h hl
        · exact splitNL_pairFree a b rest hrest seg
            (by rw [hs]; exact List.mem_cons_of_mem s0 h2)

theorem splitNL_sing : ∀ l : List Char, ¬('\n' ∈ l) → splitNL l = [l]
  | [], _ => rfl
  | c :: rest, h => by
    have hrec := splitNL_sing rest (fun hm => h (List.mem_cons_of_mem c hm))
    simp only [splitNL, hrec]
    rw [if_neg (fun hc => h (by simp [hc]))]

theorem splitNL_append_nl (m : List Char) :
    ∀ l : List Char, ¬('\n' ∈ l) → splitNL (l ++ '\n' :: m) = l :: splitNL m
  | [], _ => by
    simp only [List.nil_append]
    cases hs : splitNL m with
    | nil => exact absurd hs (splitNL_ne_nil m)
    | cons s0 ss =>
      simp only [splitNL, hs]
      rw [if_pos trivial, ← hs]
  | c :: cs, h => by
    have hnotc : ¬('\n' ∈ cs) := fun hm => h (List.mem_cons_of_mem c hm)
    have hcne : ¬(c = '\n') := fun hc => h (by simp [hc])
    have hrec := splitNL_append_nl m cs hnotc
    rw [List.cons_append]
    cases hs : splitNL (cs ++ '\n' :: m) with
    | nil => exact absurd hs (splitNL_ne_nil _)
    | cons s0 ss =>
      simp only [splitNL, List.append_eq, hs]
      rw [if_neg hcne]
      rw [hrec] at hs
      injection hs with h1 h2
      rw [← h1, ← h2]

theorem splitNL_joinNL : ∀ L : List (List Char), L ≠ [] →
    (∀ seg ∈ L, ¬('\n' ∈ seg)) → splitNL (joinNL L) = L
  | [], h, _ => absurd rfl h
  | [l], _, hseg => by
    simp only [joinNL]
    exact splitNL_sing l (hseg l (by simp))
  | l :: l2 :: L2, _, hseg => by
    simp only [joinNL]
    rw [splitNL_append_nl (joinNL (l2 :: L2)) l (hseg l (by simp))]
    rw [splitNL_joinNL (l2 :: L2) (by simp) (fun s hs => hseg s (List.mem_cons_of_mem l hs))]

theorem joinNL_chars : ∀ L : List (List Char), ∀ c ∈ joinNL L,
    (∃ seg ∈ L, c ∈ seg) ∨ c = '\n'
  | [] => by simp [joinNL]
  | [l] => by
    intro c hc
    exact Or.inl ⟨l, by simp, hc⟩
  | l :: l2 :: L2 => by
    intro c hc
    simp only [joinNL] at hc
    rcases List.mem_append.mp hc with hm | hm
    · exact Or.inl ⟨l, by simp, hm⟩
    · rcases List.mem_cons.mp hm with rfl | hm2
      · exact Or.inr rfl
      · rcases joinNL_chars (l2 :: L2) c hm2 with ⟨seg, hs, hcs⟩ | h1
        · exact Or.inl ⟨seg, List.mem_cons_of_mem l hs, hcs⟩
        · exact Or.inr h1

theorem head?_append_of_ne_nil (l t : List α) (h : l ≠ []) : (l ++ t).head? = l.head? := by
  cases l with
  | nil => exact absurd rfl h
  | cons x xs => rfl

theorem joinNL_head? : ∀ (L : List (List Char)) (l0 : List Char) (Ls : List (List Char)),
    L = l0 :: Ls → l0 ≠ [] → (joinNL L).head? = l0.head?
  | [], _, _ => by intro h _; exact absurd h (by simp)
  | [l], l0, Ls => by
    intro h _
    injection h with h1 _
    rw [h1]
    rfl
  | l :: l2 :: L2, l0, Ls => by
    intro h hne
    injection h with h1 h2
    have hne' : l ≠ [] := by rw [h1]; exact hne
    rw [← h1]
    simp only [joinNL]
    exact head?_append_of_ne_nil l _ hne'

theorem getLast?_cons_of_ne_nil (a : α) (l : List α) (h : l ≠ []) :
    (a :: l).getLast? = l.getLast? := by
  cases l with
  | nil => exact absurd rfl h
  | cons b bs => rw [List.getLast?_cons_cons]

theorem getLast?_append_of_ne_nil (l : List α) :
    ∀ t : List α, t ≠ [] → (l ++ t).getLast? = t.getLast? := by
  induction l with
  | nil => intro t ht; rw [List.nil_append]
  | cons x xs ih =>
    intro t ht
    rw [List.cons_append, getLast?_cons_of_ne_nil _ _ (by
      intro hcon
      rcases List.append_eq_nil.mp hcon with ⟨_, h2⟩
      exact ht h2), ih t ht]

theorem joinNL_ne_nil : ∀ (L : List (List Char)) (lz : List Char),
    L.getLast? = some lz → lz ≠ [] → joinNL L ≠ []
  | [], lz => by simp
  | [l], lz => by
    intro hlz hne
    rw [List.getLast?_singleton] at hlz
    injection hlz with h1
    simp only [joinNL]
    rw [h1]
    exact hne
  | l :: l2 :: L2, lz => by
    intro hlz hne
    simp only [joinNL]
    intro hcon
    rcases List.append_eq_nil.mp hcon with ⟨_, h2⟩
    exact List.cons_ne_nil _ _ h2

theorem joinNL_getLast? : ∀ (L : List (List Char)) (lz : List Char),
    L.getLast? = some lz → lz ≠ [] → (joinNL L).getLast? = lz.getLast?
  | [], lz => by simp
  | [l], lz => by
    intro hlz hne
    rw [List.getLast?_singleton] at hlz
    injection hlz with h1
    simp only [joinNL]
    rw [h1]
  | l :: l2 :: L2, lz => by
    intro hlz hne
    rw [List.getLast?_cons_cons] at hlz
    simp only [joinNL]
    rw [getLast?_append_of_ne_nil l _ (List.cons_ne_nil _ _)]
    rw [getLast?_cons_of_ne_nil _ _ (joinNL_ne_nil (l2 :: L2) lz hlz hne)]
    exact joinNL_getLast? (l2 :: L2) lz hlz hne

theorem joinNL_pairFree (a b : Char) (hna : a ≠ '\n') (hnb : b ≠ '\n') :
    ∀ L : List (List Char), (∀ seg ∈ L, pairFree a b seg) → pairFree a b (joinNL L)
  | [], _ => trivial
  | [l], h => h l (by simp)
  | l :: l2 :: L2, h => by
    simp only [joinNL]
    refine adjOK_append _ ('\n' :: joinNL (l2 :: L2)) ?h2 l (h l (by simp)) ?hb
    case h2 =>
      refine (adjOK_cons_iff _ '\n' _).mpr
        ⟨?_, joinNL_pairFree a b hna hnb (l2 :: L2)
              (fun s hs => h s (List.mem_cons_of_mem l hs))⟩
      intro hh _
      exact fun hcon => hna hcon.1.symm
    case hb =>
      intro x y hx hy
      rw [List.head?_cons] at hy
      injection hy with hy2
      rw [← hy2]
      exact fun hcon => hnb hcon.2.symm

/-! #### Sanitizer idempotence (C6): stripMeta, collapse and blank-trim facts -/

theorem stripMeta_suffix (dLow hLow : List Char) :
    ∀ ls : List (List Char), ∃ s, ls = s ++ stripMeta dLow hLow ls
  | [] => ⟨[], rfl⟩
  | l :: rest => by
    by_cases hb : pyStrip l = []
    · obtain ⟨s, hs⟩ := stripMeta_suffix dLow hLow rest
      refine ⟨l :: s, ?_⟩
      rw [stripMeta_cons, if_pos hb, List.cons_append, ← hs]
    · by_cases hm : isMetaLine dLow hLow (pyStrip l)
      · obtain ⟨s, hs⟩ := stripMeta_suffix dLow hLow rest
        refine ⟨l :: s, ?_⟩
        rw [stripMeta_cons, if_neg hb, if_pos hm, List.cons_append, ← hs]
      · refine ⟨[], ?_⟩
        rw [stripMeta_cons, if_neg hb, if_neg hm, List.nil_append]

theorem stripMeta_head_normal (dLow hLow : List Char) :
    ∀ (ls : List (List Char)) (l0 : List Char) (rest : List (List Char)),
      stripMeta dLow hLow ls = l0 :: rest →
      pyStrip l0 ≠ [] ∧ isMetaLine dLow hLow (pyStrip l0) = false
  | [] => by
    intro l0 rest h
    simp [stripMeta] at h
  | l :: ls2 => by
    intro l0 rest h
    rw [stripMeta_cons] at h
    split_ifs at h with h1 h2
    · exact stripMeta_head_normal dLow hLow ls2 l0 rest h
    · exact stripMeta_head_normal dLow hLow ls2 l0 rest h
    · injection h with ha hb
      rw [← ha]
      exact ⟨h1, Bool.eq_false_iff.mpr h2⟩

theorem stripMeta_eq_self (dLow hLow : List Char) (l0 : List Char) (rest : List (List Char))
    (h1 : pyStrip l0 ≠ []) (h2 : isMetaLine dLow hLow (pyStrip l0) = false) :
    stripMeta dLow hLow (l0 :: rest) = l0 :: rest := by
  rw [stripMeta_cons, if_neg h1, if_neg (by simp [h2])]

theorem collapseAfter_cons (prev y : List Char) (rest : List (List Char)) :
    collapseAfter prev (y :: rest)
      = if y = [] ∧ prev = [] then collapseAfter prev rest
        else y :: collapseAfter y rest := rfl

theorem collapseAfter_adjOK (prev : List Char) :
    ∀ l : List (List Char),
      adjOK (fun x y => ¬(x = [] ∧ y = [])) (prev :: collapseAfter prev l)
  | [] => trivial
  | y :: rest => by
    by_cases hc : y = [] ∧ prev = []
    · rw [collapseAfter_cons, if_pos hc]
      exact collapseAfter_adjOK prev rest
    · rw [collapseAfter_cons, if_neg hc]
      exact ⟨fun hcon => hc ⟨hcon.2, hcon.1⟩, collapseAfter_adjOK y rest⟩

theorem collapse_adjOK (l : List (List Char)) : noTwoBlank (collapse l) := by
  cases l with
  | nil => trivial
  | cons x rest =>
    have h := collapseAfter_adjOK x rest
    exact h

theorem collapseAfter_eq_self (prev : List Char) :
    ∀ l : List (List Char),
      adjOK (fun x y => ¬(x = [] ∧ y = [])) (prev :: l) → collapseAfter prev l = l
  | [], _ => rfl
  | y :: rest, h => by
    obtain ⟨hpy, hrest⟩ := h
    rw [collapseAfter_cons, if_neg (fun hcon => hpy ⟨hcon.2, hcon.1⟩)]
    rw [collapseAfter_eq_self y rest hrest]

theorem collapse_eq_self (l : List (List Char)) (h : noTwoBlank l) : collapse l = l := by
  cases l with
  | nil => rfl
  | cons x rest =>
    show x :: collapseAfter x rest = x :: rest
    rw [collapseAfter_eq_self x rest h]

theorem mem_collapseAfter (prev : List Char) :
    ∀ (l : List (List Char)) (x : List Char), x ∈ collapseAfter prev l → x ∈ l
  | [], x, h => by simp [collapseAfter] at h
  | y :: rest, x, h => by
    rw [collapseAfter_cons] at h
    split_ifs at h with hc
    · exact List.mem_cons_of_mem y (mem_collapseAfter prev rest x h)
    · rcases List.mem_cons.mp h with rfl | h2
      · simp
      · exact List.mem_cons_of_mem y (mem_collapseAfter y rest x h2)

theorem mem_collapse (l : List (List Char)) (x : List Char) (h : x ∈ collapse l) : x ∈ l := by
  cases l with
  | nil => simpa [collapse] using h
  | cons a rest =>
    have h2 : x ∈ a :: collapseAfter a rest := h
    rcases List.mem_cons.mp h2 with rfl | h3
    · simp
    · exact List.mem_cons_of_mem a (mem_collapseAfter a rest x h3)

theorem exists_dropTrailingBlanks (l : List (List Char)) :
    ∃ t, l = dropTrailingBlanks l ++ t := by
  obtain ⟨s, hs⟩ := exists_dropWhile_eq (fun x : List Char => x.isEmpty) l.reverse
  refine ⟨s.reverse, ?_⟩
  unfold dropTrailingBlanks
  calc l = l.reverse.reverse := by simp
    _ = (s ++ l.reverse.dropWhile (fun x => x.isEmpty)).reverse := by rw [← hs]
    _ = (l.reverse.dropWhile (fun x => x.isEmpty)).reverse ++ s.reverse := by simp

theorem dropTrailingBlanks_getLast? (l : List (List Char)) (x : List Char)
    (h : (dropTrailingBlanks l).getLast? = some x) : x ≠ [] := by
  unfold dropTrailingBlanks at h
  rw [List.getLast?_reverse] at h
  have hb := head?_dropWhile (fun y : List Char => y.isEmpty) l.reverse x h
  simpa using hb

theorem dropTrailingBlanks_eq_self (l : List (List Char))
    (h : ∀ x, l.getLast? = some x → x ≠ []) : dropTrailingBlanks l = l := by
  unfold dropTrailingBlanks
  rw [dropWhile_eq_self_of_head _ _ ?hh, List.reverse_reverse]
  case hh =>
    intro x hx
    rw [List.head?_reverse] at hx
    cases x with
    | nil => exact absurd rfl (h [] hx)
    | cons a as => rfl

theorem dropTrailingBlanks_head? (l : List (List Char))
    (hne : dropTrailingBlanks l ≠ []) : (dropTrailingBlanks l).head? = l.head? := by
  obtain ⟨t, ht⟩ := exists_dropTrailingBlanks l
  cases hd : dropTrailingBlanks l with
  | nil => exact absurd hd hne
  | cons x xs =>
    rw [ht, hd]
    rfl

/-! #### Sanitizer idempotence (C6): the fixed-point argument -/

theorem pipelineTail_fixed (d h : List Char) (lines : List (List Char))
    (hl : ∀ l ∈ lines, pyStrip l = l ∧ ¬('\n' ∈ l) ∧ (∀ c ∈ l, c ≠ '\r')
          ∧ pairFree '\\' 'n' l) :
    sanitizeL d h (pipelineTail (pyLower (pyStrip d)) (pyLower (pyStrip h)) lines)
      = pipelineTail (pyLower (pyStrip d)) (pyLower (pyStrip h)) lines := by
  cases hkept : stripMeta (pyLower (pyStrip d)) (pyLower (pyStrip h)) lines with
  | nil =>
    have hpt : pipelineTail (pyLower (pyStrip d)) (pyLower (pyStrip h)) lines = [] := by
      unfold pipelineTail
      rw [hkept]
      rfl
    rw [hpt]
    rfl
  | cons k0 krest =>
    obtain ⟨hk0strip, hk0meta⟩ := stripMeta_head_normal _ _ lines k0 krest hkept
    obtain ⟨spre, hspre⟩ := stripMeta_suffix (pyLower (pyStrip d)) (pyLower (pyStrip h)) lines
    have hkept_sub : ∀ x ∈ k0 :: krest, x ∈ lines := by
      intro x hx
      rw [hspre, hkept]
      exact List.mem_append_right spre hx
    have hk0lines : k0 ∈ lines := hkept_sub k0 (by simp)
    have hk0 : pyStrip k0 = k0 := (hl k0 hk0lines).1
    have hk0ne : k0 ≠ [] := by
      rw [hk0] at hk0strip
      exact hk0strip
    have hk0empty : k0.isEmpty = false := by
      cases k0 with
      | nil => exact absurd rfl hk0ne
      | cons a as => rfl
    have hdropL : dropLeadingBlanks (collapse (k0 :: krest)) = collapse (k0 :: krest) := by
      show dropLeadingBlanks (k0 :: collapseAfter k0 krest) = k0 :: collapseAfter k0 krest
      unfold dropLeadingBlanks
      rw [List.dropWhile_cons, if_neg (by rw [hk0empty]; simp)]
    unfold pipelineTail
    rw [hkept, hdropL]
    have hcl_ne : dropTrailingBlanks (collapse (k0 :: krest)) ≠ [] := by
      intro hcon
      unfold dropTrailingBlanks at hcon
      rw [List.reverse_eq_nil_iff] at hcon
      have hall := List.dropWhile_eq_nil_iff.mp hcon
      have hk0mem : k0 ∈ (collapse (k0 :: krest)).reverse := by
        rw [List.mem_reverse]
        show k0 ∈ k0 :: collapseAfter k0 krest
        simp
      have hbad := hall k0 hk0mem
      rw [hk0empty] at hbad
      exact Bool.noConfusion hbad
    set cleaned := dropTrailingBlanks (collapse (k0 :: krest)) with hcld
    have hmem_cleaned : ∀ x ∈ cleaned, x ∈ lines := by
      intro x hx
      obtain ⟨t, ht⟩ := exists_dropTrailingBlanks (collapse (k0 :: krest))
      have hxCL : x ∈ collapse (k0 :: krest) := by
        rw [ht]
        exact List.mem_append_left t hx
      exact hkept_sub x (mem_collapse _ x hxCL)
    have hprops : ∀ x ∈ cleaned, pyStrip x = x ∧ ¬('\n' ∈ x) ∧ (∀ c ∈ x, c ≠ '\r')
        ∧ pairFree '\\' 'n' x :=
      fun x hx => hl x (hmem_cleaned x hx)
    have hhead : cleaned.head? = some k0 := by
      have hh := dropTrailingBlanks_head? (collapse (k0 :: krest)) hcl_ne
      exact hh.trans rfl
    have hclc : ∃ cr, cleaned = k0 :: cr := by
      cases hc : cleaned with
      | nil => rw [hc] at hhead; simp at hhead
      | cons c0 cr =>
        rw [hc, List.head?_cons] at hhead
        injection hhead with hc0
        exact ⟨cr, by rw [← hc0]⟩
    obtain ⟨cr, hclc⟩ := hclc
    obtain ⟨kc0, k0t, hk0cons⟩ : ∃ c t2, k0 = c :: t2 := by
      cases k0 with
      | nil => exact absurd rfl hk0ne
      | cons a as => exact ⟨a, as, rfl⟩
    have hjoin_head : (joinNL cleaned).head? = some kc0 := by
      rw [joinNL_head? cleaned k0 cr hclc hk0ne, hk0cons]
      rfl
    have hkc0 : isPySpace kc0 = false :=
      pyStrip_head_not_space k0 kc0 k0t (hk0.trans hk0cons)
    rcases List.eq_nil_or_concat cleaned with hnil | ⟨clInit, lz, hconc⟩
    · exact absurd hnil hcl_ne
    rw [List.concat_eq_append] at hconc
    have hlast : cleaned.getLast? = some lz := by
      rw [hconc]
      exact List.getLast?_concat _
    have hlzne : lz ≠ [] := dropTrailingBlanks_getLast? _ lz hlast
    have hlzmem : lz ∈ cleaned := by rw [hconc]; simp
    have hlzstrip : pyStrip lz = lz := (hprops lz hlzmem).1
    have hjoin_last : (joinNL cleaned).getLast? = lz.getLast? :=
      joinNL_getLast? cleaned lz hlast hlzne
    have hout_eq : pyStrip (joinNL cleaned) = joinNL cleaned := by
      apply pyStrip_eq_self
      · intro x hx
        rw [hjoin_head] at hx
        injection hx with hx2
        rw [← hx2]
        exact hkc0
      · intro x hx
        rw [hjoin_last] at hx
        apply pyStrip_last_not_space lz
        rw [hlzstrip]
        exact hx
    have hout_ne : joinNL cleaned ≠ [] := by
      intro hcon
      rw [hcon] at hjoin_head
      simp at hjoin_head
    rw [hout_eq]
    rw [sanitizeL_of_ne d h _ hout_ne]
    have hnocr : ∀ c ∈ joinNL cleaned, c ≠ '\r' := by
      intro c hc
      rcases joinNL_chars cleaned c hc with ⟨seg, hs, hcs⟩ | h1
      · exact (hprops seg hs).2.2.1 c hcs
      · rw [h1]; decide
    have h1 : replace2 '\r' '\n' '\n' (joinNL cleaned) = joinNL cleaned :=
      replace2_eq_self_of_no_a _ _ _ _ hnocr
    have h2 : mapCR (joinNL cleaned) = joinNL cleaned := mapCR_eq_self _ hnocr
    have hpf : pairFree '\\' 'n' (joinNL cleaned) :=
      joinNL_pairFree _ _ (by decide) (by decide) cleaned (fun s hs => (hprops s hs).2.2.2)
    have h3 : replace2 '\\' 'n' '\n' (joinNL cleaned) = joinNL cleaned :=
      replace2_eq_self_of_pairFree _ _ _ _ hpf
    rw [h1, h2, h3]
    have h4 : splitNL (joinNL cleaned) = cleaned :=
      splitNL_joinNL cleaned hcl_ne (fun s hs => (hprops s hs).2.1)
    rw [h4]
    have h5 : cleaned.map pyStrip = cleaned := map_eq_self_of _ _ (fun x hx => (hprops x hx).1)
    rw [h5]
    have hnoTwo : noTwoBlank cleaned := by
      obtain ⟨t, ht⟩ := exists_dropTrailingBlanks (collapse (k0 :: krest))
      have hadj := collapse_adjOK (k0 :: krest)
      rw [ht] at hadj
      exact adjOK_append_left _ _ t hadj
    have hdropLc : dropLeadingBlanks cleaned = cleaned := by
      rw [hclc]
      unfold dropLeadingBlanks
      rw [List.dropWhile_cons, if_neg (by rw [hk0empty]; simp)]
    have hdropTc : dropTrailingBlanks cleaned = cleaned :=
      dropTrailingBlanks_eq_self cleaned (fun x hx => dropTrailingBlanks_getLast? _ x hx)
    rw [hclc, stripMeta_eq_self _ _ k0 cr hk0strip hk0meta, ← hclc]
    rw [collapse_eq_self cleaned hnoTwo, hdropLc, hdropTc]
    exact hout_eq

/-- Core idempotence of the character-level sanitizer. -/
theorem sanitizeL_idem_core (d h raw : List Char) :
    sanitizeL d h (sanitizeL d h raw) = sanitizeL d h raw := by
  by_cases hraw : raw = []
  · subst hraw
    rfl
  · rw [sanitizeL_of_ne d h raw hraw]
    apply pipelineTail_fixed
    intro l hl
    obtain ⟨seg, hseg, hlseg⟩ := List.mem_map.mp hl
    have htextpf : pairFree '\\' 'n'
        (replace2 '\\' 'n' '\n' (mapCR (replace2 '\r' '\n' '\n' raw))) :=
      replace2_pairFree _ _ _ (by decide) (by decide) _
    have htextcr : ∀ c ∈ replace2 '\\' 'n' '\n' (mapCR (replace2 '\r' '\n' '\n' raw)),
        c ≠ '\r' := by
      intro c hc
      rcases mem_replace2 _ _ _ _ c hc with h1 | h1
      · exact mapCR_no_cr _ c h1
      · rw [h1]; decide
    subst hlseg
    refine ⟨pyStrip_idem seg, ?_, ?_, ?_⟩
    · intro hnl
      exact splitNL_no_nl _ seg hseg (mem_of_mem_pyStrip seg _ hnl)
    · intro c hc
      exact htextcr c (splitNL_chars _ seg hseg c (mem_of_mem_pyStrip seg c hc))
    · exact pairFree_pyStrip _ _ seg (splitNL_pairFree _ _ _ htextpf seg hseg)

/-- String-level idempotence of `_clean_section_content` (shared helper). -/
theorem clean_content_idem (t h x : String) :
    _clean_section_content t h (_clean_section_content t h x)
      = _clean_section_content t h x :=
  congrArg String.mk (sanitizeL_idem_core t.data h.data x.data)

/-- C6: the Text Sanitizer is idempotent — for every document title, heading
and raw text, applying `_clean_section_content` a second time with the same
title and heading changes nothing. -/
theorem sanitizer_idempotent (t h x : String) :
    _clean_section_content t h (_clean_section_content t h x)
      = _clean_section_content t h x :=
  clean_content_idem t h x

/-! #### Export re-applies the sanitizer (C9) -/

theorem orderedInsert_map_cleanPage (title : String) (a : Nat × List SecDict) :
    ∀ l : List (Nat × List SecDict),
      List.orderedInsert pageLe (cleanPage title a) (l.map (cleanPage title))
        = (List.orderedInsert pageLe a l).map (cleanPage title) := by
  intro l
  induction l with
  | nil => rfl
  | cons b bs ih =>
    simp only [List.map_cons, List.orderedInsert]
    by_cases hr : pageLe a b
    · rw [if_pos (show pageLe (cleanPage title a) (cleanPage title b) from hr), if_pos hr]
      rfl
    · rw [if_neg (show ¬pageLe (cleanPage title a) (cleanPage title b) from hr), if_neg hr]
      rw [List.map_cons, ih]

theorem insertionSort_map_cleanPage (title : String) :
    ∀ l : List (Nat × List SecDict),
      List.insertionSort pageLe (l.map (cleanPage title))
        = (List.insertionSort pageLe l).map (cleanPage title) := by
  intro l
  induction l with
  | nil => rfl
  | cons x xs ih =>
    simp only [List.map_cons, List.insertionSort]
    rw [ih, orderedInsert_map_cleanPage]

theorem emitSection_clean (title : String) (ps hs : Nat) (sec : SecDict) :
    emitSection title ps hs (cleanSec title sec) = emitSection title ps hs sec := by
  simp only [emitSection, cleanSec]
  rw [clean_content_idem]

theorem pageBlock_clean (title : String) (secs : List SecDict) :
    pageBlock title (secs.map (cleanSec title)) = pageBlock title secs := by
  unfold pageBlock
  rw [List.length_map]
  show (List.map (emitSection title (fontSizes secs.length).1 (fontSizes secs.length).2)
      (List.map (cleanSec title) secs)).flatten
    = (List.map (emitSection title (fontSizes secs.length).1 (fontSizes secs.length).2)
        secs).flatten
  rw [List.map_map]
  congr 1
  exact List.map_congr_left (fun sec _ => emitSection_clean title _ _ sec)

theorem buildPages_clean (title : String) :
    ∀ (first : Bool) (l : List (Nat × List SecDict)),
      buildPages title first (l.map (cleanPage title)) = buildPages title first l
  | _, [] => rfl
  | first, pg :: rest => by
    simp only [List.map_cons, buildPages]
    rw [buildPages_clean title false rest]
    rw [show (cleanPage title pg).2 = pg.2.map (cleanSec title) from rfl, pageBlock_clean]

/-- C9: on every export, the full Text Sanitizer is re-applied to every stored
section content — pre-sanitizing all stored contents (as refinement would have,
had it sanitized before storing) changes nothing in the emitted document, since
`build_docx_file` sanitizes each body itself and the sanitizer is idempotent;
and the refinement path stores the collaborator's result verbatim (no sanitizer
applied), both as the new `content` and as the appended history entry. -/
theorem export_resanitizes (title : String) (pages : List (Nat × List SecDict))
    (s : SectionState) (p c : String) :
    build_docx_file title (cleanStored title pages) = build_docx_file title pages
    ∧ (refineSection s p c).content = c
    ∧ ((refineSection s p c).history.getLast?).map (fun e => e.content) = some c := by
  refine ⟨?_, rfl, by simp [refineSection]⟩
  unfold build_docx_file cleanStored
  congr 1
  rw [insertionSort_map_cleanPage, buildPages_clean]

/-! #### Concrete sanity checks of the sanitizer -/

example : _clean_section_content "Doc" "Introduction"
    "Page 2 – Section 3\nIntroduction: growth has accelerated." = "" := by decide

example : _clean_section_content "EV Market 2025" "Body"
    "EV Market 2025\nSales grew 40% in 2024.\nEV Market 2025 remains competitive."
    = "Sales grew 40% in 2024.\nEV Market 2025 remains competitive." := by decide

example : _clean_section_content "T" "H" "a\\nb" = "a\nb" := by decide
